import Mathlib

/-!
Verification development for the localgoose embedded document-query and
aggregation engine.  The JavaScript source (Model._matchQuery,
Model._applyUpdateOperators, Model.applyTimestamps, SchemaType.cast, and the
Aggregate pipeline: _validatePipeline, _group, _unwind, _densify,
_graphLookup, _evaluateExpression, _initializeAccumulator,
_updateAccumulator) is shallowly embedded below as pure Lean functions over
a JSON-like value model.

Modelling conventions, stated once here:
* JavaScript numbers are modelled as exact rationals extended with NaN and
  signed infinities (float64 rounding is not modelled; every claim-relevant
  computation stays within small integers).
* JavaScript object identity (reference equality of arrays/objects) is not
  observable in a value embedding; strict equality on composite values is
  modelled as false (two separately constructed composites are never
  reference-equal), and Map keys use structural SameValueZero.
* String formatting of non-integer rationals and JSON string escaping are
  approximated; all claim-relevant values are integers or escape-free
  strings.
* In-place mutation is modelled by returning updated values.
-/

/-- JavaScript number: an exact rational, NaN, or a signed infinity. -/
inductive JSNum where
  | q (v : ℚ)
  | nan
  | inf
  | ninf
deriving DecidableEq, Repr

namespace JSNum

/-- JavaScript + on numbers. -/
def add : JSNum → JSNum → JSNum
  | .q a, .q b => .q (a + b)
  | .nan, _ => .nan
  | _, .nan => .nan
  | .inf, .ninf => .nan
  | .ninf, .inf => .nan
  | .inf, _ => .inf
  | _, .inf => .inf
  | .ninf, _ => .ninf
  | _, .ninf => .ninf

/-- JavaScript * on numbers. -/
def mul : JSNum → JSNum → JSNum
  | .q a, .q b => .q (a * b)
  | .nan, _ => .nan
  | _, .nan => .nan
  | .inf, .inf => .inf
  | .inf, .ninf => .ninf
  | .ninf, .inf => .ninf
  | .ninf, .ninf => .inf
  | .inf, .q b => if b = 0 then .nan else if 0 < b then .inf else .ninf
  | .ninf, .q b => if b = 0 then .nan else if 0 < b then .ninf else .inf
  | .q a, .inf => if a = 0 then .nan else if 0 < a then .inf else .ninf
  | .q a, .ninf => if a = 0 then .nan else if 0 < a then .ninf else .inf

/-- JavaScript / on numbers (0/0 is NaN, x/0 is a signed infinity). -/
def div : JSNum → JSNum → JSNum
  | .q a, .q b =>
      if b = 0 then (if a = 0 then .nan else if 0 < a then .inf else .ninf)
      else .q (a / b)
  | .nan, _ => .nan
  | _, .nan => .nan
  | .inf, .inf => .nan
  | .inf, .ninf => .nan
  | .ninf, .inf => .nan
  | .ninf, .ninf => .nan
  | .inf, .q b => if 0 ≤ b then .inf else .ninf
  | .ninf, .q b => if 0 ≤ b then .ninf else .inf
  | .q _, .inf => .q 0
  | .q _, .ninf => .q 0

/-- JavaScript < on numbers (false whenever NaN is involved). -/
def ltb : JSNum → JSNum → Bool
  | .nan, _ => false
  | _, .nan => false
  | .q a, .q b => decide (a < b)
  | .ninf, .ninf => false
  | .ninf, _ => true
  | _, .ninf => false
  | .inf, _ => false
  | .q _, .inf => true

/-- Math.min: NaN absorbs, otherwise the smaller argument. -/
def minJ : JSNum → JSNum → JSNum
  | .nan, _ => .nan
  | _, .nan => .nan
  | a, b => if ltb b a then b else a

/-- Math.max: NaN absorbs, otherwise the larger argument. -/
def maxJ : JSNum → JSNum → JSNum
  | .nan, _ => .nan
  | _, .nan => .nan
  | a, b => if ltb a b then b else a

/-- String form of a number (non-integer rationals approximated). -/
def toStr : JSNum → String
  | .nan => "NaN"
  | .inf => "Infinity"
  | .ninf => "-Infinity"
  | .q v => if v.den = 1 then toString v.num else toString v.num ++ "." ++ toString v.den

end JSNum

/-- The JSON-like value model: undefined, null, booleans, numbers, strings,
dates (epoch milliseconds), arrays and ordered string-keyed objects. -/
inductive Value where
  | vundef
  | vnull
  | vbool (b : Bool)
  | vnum (n : JSNum)
  | vstr (s : String)
  | vdate (t : Int)
  | varr (xs : List Value)
  | vobj (fs : List (String × Value))

namespace Value

/-- Shorthand for an integer number value. -/
def vint (n : Int) : Value := .vnum (.q (n : ℚ))

/-- JavaScript truthiness. -/
def truthy : Value → Bool
  | .vundef => false
  | .vnull => false
  | .vbool b => b
  | .vnum (.q v) => decide (v ≠ 0)
  | .vnum .nan => false
  | .vnum _ => true
  | .vstr s => decide (s ≠ "")
  | .vdate _ => true
  | .varr _ => true
  | .vobj _ => true

/-- typeof, as a string. -/
def typeofJS : Value → String
  | .vundef => "undefined"
  | .vnull => "object"
  | .vbool _ => "boolean"
  | .vnum _ => "number"
  | .vstr _ => "string"
  | .vdate _ => "object"
  | .varr _ => "object"
  | .vobj _ => "object"

/-- First value bound to a key in an object entry list (undefined if absent). -/
def objGet (fs : List (String × Value)) (k : String) : Value :=
  match fs with
  | [] => .vundef
  | (k', v) :: rest => if k' = k then v else objGet rest k

/-- Property set: overwrite the first binding in place, else append
(JavaScript objects keep insertion order). -/
def objSet (fs : List (String × Value)) (k : String) (v : Value) :
    List (String × Value) :=
  match fs with
  | [] => [(k, v)]
  | (k', v') :: rest =>
      if k' = k then (k', v) :: rest else (k', v') :: objSet rest k v

/-- Property delete. -/
def objDelete (fs : List (String × Value)) (k : String) :
    List (String × Value) :=
  match fs with
  | [] => []
  | (k', v') :: rest =>
      if k' = k then rest else (k', v') :: objDelete rest k

/-- Index entries of an array, as Object.entries produces them. -/
def idxEntries : List Value → Nat → List (String × Value)
  | [], _ => []
  | x :: rest, i => (toString i, x) :: idxEntries rest (i + 1)

/-- Object.entries: entry list of an object, index entries of an array,
empty for every other value (primitives have no own enumerable keys). -/
def objEntries : Value → List (String × Value)
  | .vobj fs => fs
  | .varr xs => idxEntries xs 0
  | _ => []

/-- Whether a property key is present (JavaScript "key in object"). -/
def objHas (fs : List (String × Value)) (k : String) : Bool :=
  match fs with
  | [] => false
  | (k', _) :: rest => k' = k || objHas rest k

end Value

/-! ### String helpers (ASCII model of the JavaScript string operations) -/

/-- Whitespace recognized by trim (ASCII subset of the JavaScript set). -/
def wsChar (c : Char) : Bool := c = ' ' || c = '\t' || c = '\n' || c = '\r'

/-- String.prototype.trim on a character list. -/
def trimList (l : List Char) : List Char :=
  ((l.dropWhile wsChar).reverse.dropWhile wsChar).reverse

/-- String.prototype.trim. -/
def trimStr (s : String) : String := ⟨trimList s.data⟩

/-- toLowerCase on one character (ASCII). -/
def lowC (c : Char) : Char :=
  if 65 ≤ c.toNat ∧ c.toNat ≤ 90 then Char.ofNat (c.toNat + 32) else c

/-- toUpperCase on one character (ASCII). -/
def upC (c : Char) : Char :=
  if 97 ≤ c.toNat ∧ c.toNat ≤ 122 then Char.ofNat (c.toNat - 32) else c

/-- String.prototype.toLowerCase (ASCII). -/
def lowerStr (s : String) : String := ⟨s.data.map lowC⟩

/-- String.prototype.toUpperCase (ASCII). -/
def upperStr (s : String) : String := ⟨s.data.map upC⟩

/-- Whether the first list is an initial segment of the second. -/
def leadsWith : List Char → List Char → Bool
  | [], _ => true
  | _ :: _, [] => false
  | a :: as, b :: bs => a == b && leadsWith as bs

/-- Substring containment on character lists. -/
def hasSub (hay needle : List Char) : Bool :=
  leadsWith needle hay ||
    match hay with
    | [] => false
    | _ :: t => hasSub t needle

/-- String.prototype.includes. -/
def strIncludes (s sub : String) : Bool := hasSub s.data sub.data

/-! ### Number parsing (the Number(string) coercion, decimal subset) -/

/-- Decimal digit test. -/
def isDigitCh (c : Char) : Bool := decide ('0' ≤ c) && decide (c ≤ '9')

/-- Value of a decimal digit character. -/
def digitVal (c : Char) : Nat := c.toNat - 48

/-- Natural number denoted by a digit list. -/
def digitsToNat (l : List Char) : Nat :=
  l.foldl (fun a c => a * 10 + digitVal c) 0

/-- Parse an unsigned decimal numeral with optional fractional part.
Hexadecimal and exponent forms are not modelled (unused by every claim). -/
def parseUnsigned (l : List Char) : Option ℚ :=
  let ip := l.takeWhile (fun c => c ≠ '.')
  let rest := l.dropWhile (fun c => c ≠ '.')
  match rest with
  | [] => if ip ≠ [] && ip.all isDigitCh then some ((digitsToNat ip : ℚ)) else none
  | _ :: fp =>
      if (ip ≠ [] || fp ≠ []) && ip.all isDigitCh && fp.all isDigitCh then
        some ((digitsToNat ip : ℚ) + (digitsToNat fp : ℚ) / ((10 : ℚ) ^ fp.length))
      else none

/-- Number(string) over the decimal fragment: trim, empty is 0, optional
sign, "Infinity", else decimal numeral or NaN. -/
def jsParseNum (s : String) : JSNum :=
  let l := trimList s.data
  if l = [] then .q 0
  else
    let core : List Char → JSNum := fun m =>
      if m = "Infinity".data then .inf
      else match parseUnsigned m with
        | some v => .q v
        | none => .nan
    match l with
    | '+' :: rest => core rest
    | '-' :: rest =>
        match core rest with
        | .q v => .q (-v)
        | .inf => .ninf
        | x => x
    | _ => core l

/-! ### Value coercions -/

namespace Value

/-- Number coercion (ToNumber).  A singleton array coerces through its
element, approximating Number(String([x])). -/
def toNumberJS : Value → JSNum
  | .vundef => .nan
  | .vnull => .q 0
  | .vbool b => if b then .q 1 else .q 0
  | .vnum n => n
  | .vstr s => jsParseNum s
  | .vdate t => .q (t : ℚ)
  | .varr [] => .q 0
  | .varr [x] => toNumberJS x
  | .varr _ => .nan
  | .vobj _ => .nan

/-- String coercion (ToString).  An array joins element strings with
commas, null and undefined elements joining as empty strings. -/
def toStringJS : Value → String
  | .vundef => "undefined"
  | .vnull => "null"
  | .vbool b => if b then "true" else "false"
  | .vnum n => n.toStr
  | .vstr s => s
  | .vdate t => "Date(" ++ toString t ++ ")"
  | .varr xs =>
      String.intercalate ","
        (xs.attach.map fun ⟨x, hx⟩ =>
          match x, hx with
          | .vnull, _ => ""
          | .vundef, _ => ""
          | y, hy => toStringJS y)
  | .vobj _ => "[object Object]"
termination_by v => sizeOf v
decreasing_by
  have h := List.sizeOf_lt_of_mem hy
  simp only [Value.varr.sizeOf_spec]
  omega

/-- Strict equality (===): primitive value equality, NaN unequal to
itself; composite values compare by reference, which two separately built
values never share, so composites compare false here. -/
def strictEq : Value → Value → Bool
  | .vundef, .vundef => true
  | .vnull, .vnull => true
  | .vbool a, .vbool b => a == b
  | .vnum .nan, _ => false
  | _, .vnum .nan => false
  | .vnum a, .vnum b => decide (a = b)
  | .vstr a, .vstr b => a == b
  | _, _ => false

/-- SameValueZero (used by Array.includes and Map keys): like strict
equality but NaN equals NaN. -/
def sameValueZero : Value → Value → Bool
  | .vundef, .vundef => true
  | .vnull, .vnull => true
  | .vbool a, .vbool b => a == b
  | .vnum a, .vnum b => decide (a = b)
  | .vstr a, .vstr b => a == b
  | _, _ => false

/-- ToPrimitive for + and relational operators: dates, arrays and objects
become their string form, primitives pass through. -/
def toPrimJS : Value → Value
  | .varr xs => .vstr (toStringJS (.varr xs))
  | .vobj fs => .vstr (toStringJS (.vobj fs))
  | .vdate t => .vstr (toStringJS (.vdate t))
  | p => p

/-- JavaScript +: string concatenation when either primitive is a string,
numeric addition otherwise. -/
def jsAdd (a b : Value) : Value :=
  let a' := toPrimJS a
  let b' := toPrimJS b
  match a', b' with
  | .vstr _, _ => .vstr (toStringJS a' ++ toStringJS b')
  | _, .vstr _ => .vstr (toStringJS a' ++ toStringJS b')
  | _, _ => .vnum ((toNumberJS a').add (toNumberJS b'))

/-- JavaScript <: lexicographic when both primitives are strings, numeric
comparison otherwise (false on NaN). -/
def jsLtB (a b : Value) : Bool :=
  match toPrimJS a, toPrimJS b with
  | .vstr x, .vstr y => decide (x < y)
  | x, y => (toNumberJS x).ltb (toNumberJS y)

/-- JavaScript >: the mirrored <. -/
def jsGtB (a b : Value) : Bool := jsLtB b a

/-- JavaScript >=: false on NaN, otherwise the negation of <. -/
def jsGeB (a b : Value) : Bool :=
  match toPrimJS a, toPrimJS b with
  | .vstr x, .vstr y => !decide (x < y)
  | x, y =>
      match toNumberJS x, toNumberJS y with
      | .nan, _ => false
      | _, .nan => false
      | m, n => !m.ltb n

/-- JavaScript <=. -/
def jsLeB (a b : Value) : Bool := jsGeB b a

/-- Truncation toward zero of a rational. -/
def truncQ (x : ℚ) : Int := x.num / (x.den : Int)

/-- JavaScript %: truncated remainder (sign of the dividend); a finite
dividend with an infinite divisor passes through. -/
def jsMod (a b : Value) : Value :=
  match toNumberJS a, toNumberJS b with
  | .q x, .q y =>
      if y = 0 then .vnum .nan
      else .vnum (.q (x - y * (truncQ (x / y) : ℚ)))
  | .q x, .inf => .vnum (.q x)
  | .q x, .ninf => .vnum (.q x)
  | _, _ => .vnum .nan

/-- JSON.stringify: none models the undefined result.  String escaping is
not modelled (claim-relevant strings are escape-free). -/
def jsonStr : Value → Option String
  | .vundef => none
  | .vnull => some "null"
  | .vbool b => some (if b then "true" else "false")
  | .vnum (.q v) => some (JSNum.q v).toStr
  | .vnum _ => some "null"
  | .vstr s => some ("\"" ++ s ++ "\"")
  | .vdate t => some ("\"" ++ toString t ++ "\"")
  | .varr xs =>
      some ("[" ++ String.intercalate ","
        (xs.attach.map fun ⟨x, _⟩ => (jsonStr x).getD "null") ++ "]")
  | .vobj fs =>
      some ("\x7b" ++ String.intercalate ","
        (fs.attach.filterMap fun ⟨(k, v), _⟩ =>
          (jsonStr v).map fun sv => "\"" ++ k ++ "\":" ++ sv) ++ "\x7d")
termination_by v => sizeOf v
decreasing_by
  · simp only [Value.varr.sizeOf_spec]
    have h := List.sizeOf_lt_of_mem (by assumption : x ∈ xs)
    omega
  · simp only [Value.vobj.sizeOf_spec]
    have h := List.sizeOf_lt_of_mem (by assumption : (k, v) ∈ fs)
    simp only [Prod.mk.sizeOf_spec] at h
    omega

end Value

namespace Value

/-- Property read doc[key]: object lookup; every other base yields
undefined (array index and string-method access are unused by the engine). -/
def propGet : Value → String → Value
  | .vobj fs, k => objGet fs k
  | _, _ => vundef

/-- Whether a value is the undefined value. -/
def isUndef : Value → Bool
  | .vundef => true
  | _ => false

/-- Element list of an array operand.  A non-array here makes the
JavaScript source throw a TypeError; the claims never reach that case and
it is modelled as the empty list. -/
def asArray : Value → List Value
  | .varr xs => xs
  | _ => []

/-- Array index read operand[i] (undefined when out of range or not an
array). -/
def arrIdx (v : Value) (i : Nat) : Value :=
  match v with
  | .varr xs => (xs.drop i).headD .vundef
  | _ => .vundef

end Value

/-! ### Termination helpers -/

/-- Members of idxEntries are members of the underlying list. -/
theorem sizeOf_lt_of_mem_idxEntries {xs : List Value} {i : Nat}
    {k : String} {v : Value} (h : (k, v) ∈ Value.idxEntries xs i) :
    sizeOf v < sizeOf xs := by
  induction xs generalizing i with
  | nil => simp [Value.idxEntries] at h
  | cons x rest ih =>
      simp only [Value.idxEntries, List.mem_cons] at h
      rcases h with h | h
      · cases h; simp; omega
      · have := ih h
        simp
        omega

/-- An entry value of Object.entries is smaller than the whole value. -/
theorem sizeOf_lt_of_mem_objEntries {q : Value} {k : String} {v : Value}
    (h : (k, v) ∈ Value.objEntries q) : sizeOf v < sizeOf q := by
  cases q <;> simp only [Value.objEntries] at h
  case varr xs =>
    have := sizeOf_lt_of_mem_idxEntries h
    simp
    omega
  case vobj fs =>
    have h1 := List.sizeOf_lt_of_mem h
    simp only [Prod.mk.sizeOf_spec] at h1
    simp
    omega
  all_goals simp at h

/-- An element of asArray is smaller than the array value. -/
theorem sizeOf_lt_of_mem_asArray {v c : Value} (h : c ∈ Value.asArray v) :
    sizeOf c < sizeOf v := by
  cases v <;> simp only [Value.asArray] at h
  case varr xs =>
    have := List.sizeOf_lt_of_mem h
    simp
    omega
  all_goals simp at h

/-! ### Predicate Evaluator (Model._matchQuery) -/

namespace Model

/-- Flags handed to new RegExp: the $options entry of the operator map,
empty when absent (undefined). -/
def regexFlags (mapVal : Value) : String :=
  match Value.objGet (Value.objEntries mapVal) "$options" with
  | .vundef => ""
  | v => Value.toStringJS v

/-- RegExp(pattern, flags).test(str), modelled for literal patterns
(no metacharacters appear in any claim): substring search, folded to
lower case when the flags contain i. -/
def regexTest (pattern flags str : String) : Bool :=
  if strIncludes flags "i" then
    hasSub (lowerStr str).data (lowerStr pattern).data
  else hasSub str.data pattern.data

/-- One operator of a field operator map, from the switch in
Model._matchQuery.  The final arm is the default: an operator key outside
the supported table evaluates to false, never an error. -/
def matchOp (doc : Value) (key : String) (mapVal : Value)
    (op : String) (operand : Value) : Bool :=
  let dv := Value.propGet doc key
  if op = "$gt" then Value.jsGtB dv operand
  else if op = "$gte" then Value.jsGeB dv operand
  else if op = "$lt" then Value.jsLtB dv operand
  else if op = "$lte" then Value.jsLeB dv operand
  else if op = "$ne" then !(Value.strictEq dv operand)
  else if op = "$in" then
    let docValue := match dv with | .varr xs => xs | v => [v]
    (Value.asArray operand).any fun item =>
      docValue.any fun d => Value.sameValueZero d item
  else if op = "$nin" then
    let docValue := match dv with | .varr xs => xs | v => [v]
    !((Value.asArray operand).any fun item =>
      docValue.any fun d => Value.sameValueZero d item)
  else if op = "$regex" then
    regexTest (Value.toStringJS operand) (regexFlags mapVal)
      (Value.toStringJS dv)
  else if op = "$exists" then
    (operand.truthy && !dv.isUndef) || (!operand.truthy && dv.isUndef)
  else if op = "$type" then
    Value.strictEq (.vstr (Value.typeofJS dv)) operand
  else if op = "$mod" then
    Value.strictEq (Value.jsMod dv (Value.arrIdx operand 0))
      (Value.arrIdx operand 1)
  else if op = "$text" then
    match dv, operand with
    | .vstr s, .vstr o => strIncludes (lowerStr s) (lowerStr o)
    | _, _ => false
  else false

/-- Model._matchQuery: conjunction over the filter entries; $and/$or/$nor
recurse into sub-filters, an object-typed entry value is an operator map
tested operator by operator, and any other entry value is a strict
equality test against doc[key]. -/
def matchQuery (doc query : Value) : Bool :=
  (Value.objEntries query).attach.all fun ⟨(key, value), hkv⟩ =>
    if key = "$and" then
      (Value.asArray value).attach.all fun ⟨c, hc⟩ => matchQuery doc c
    else if key = "$or" then
      (Value.asArray value).attach.any fun ⟨c, hc⟩ => matchQuery doc c
    else if key = "$nor" then
      !((Value.asArray value).attach.any fun ⟨c, hc⟩ => matchQuery doc c)
    else if value.truthy && (Value.typeofJS value == "object") then
      (Value.objEntries value).all fun (op, operand) =>
        matchOp doc key value op operand
    else
      Value.strictEq (Value.propGet doc key) value
termination_by sizeOf query
decreasing_by
  all_goals
    have h1 := sizeOf_lt_of_mem_asArray hc
    have h2 := sizeOf_lt_of_mem_objEntries hkv
    omega

end Model

/-- The operator table of Model._matchQuery: the cases of its switch. -/
def supportedQueryOps : List String :=
  ["$gt", "$gte", "$lt", "$lte", "$ne", "$in", "$nin", "$regex", "$exists",
   "$type", "$mod", "$text"]

/-- An operator key outside the switch hits the default arm and yields
false. -/
theorem matchOp_unknown_false (doc : Value) (key : String) (mapVal : Value)
    (op : String) (operand : Value) (h : op ∉ supportedQueryOps) :
    Model.matchOp doc key mapVal op operand = false := by
  simp only [supportedQueryOps, List.mem_cons, List.not_mem_nil, or_false,
    not_or] at h
  obtain ⟨h1, h2, h3, h4, h5, h6, h7, h8, h9, h10, h11, h12⟩ := h
  unfold Model.matchOp
  rw [if_neg h1, if_neg h2, if_neg h3, if_neg h4, if_neg h5, if_neg h6,
    if_neg h7, if_neg h8, if_neg h9, if_neg h10, if_neg h11, if_neg h12]

/-- C3 (confirmed): evaluating the predicate is a total boolean function
(the embedding returns Bool, never an error), and a field operator-map
entry whose operator key is not in the supported operator table makes the
filter evaluate to false (non-match) rather than raising: the whole
conjunction containing such an entry is false. -/
theorem C3_unknown_operator_nonmatch (doc : Value) (key op : String)
    (operand : Value) (ops : List (String × Value))
    (hk1 : key ≠ "$and") (hk2 : key ≠ "$or") (hk3 : key ≠ "$nor")
    (hop : op ∉ supportedQueryOps) :
    Model.matchQuery doc (.vobj [(key, .vobj ((op, operand) :: ops))]) = false := by
  rw [Model.matchQuery]
  simp only [Value.objEntries, List.attach, List.attachWith, List.pmap,
    List.all_cons, List.all_nil]
  rw [if_neg hk1, if_neg hk2, if_neg hk3]
  simp only [Value.truthy, Value.typeofJS, Value.objEntries, List.all_cons,
    Bool.true_and, String.reduceBEq, if_true, reduceIte]
  rw [matchOp_unknown_false doc key _ op operand hop]
  simp

/-- C3 witness: the $elemMatch key is absent from the switch, so a filter
using it does not match a document that would otherwise match. -/
theorem C3_unknown_operator_nonmatch_witness :
    Model.matchQuery (.vobj [("a", Value.vint 1)])
      (.vobj [("a", .vobj [("$elemMatch", .vnull)])]) = false :=
  C3_unknown_operator_nonmatch _ "a" "$elemMatch" _ []
    (by decide) (by decide) (by decide) (by decide)

/-- C6 counterexample: without an explicit $options key, the filter
operator-map entry with a $regex pattern "abc" does not match a document
whose field holds "ABC".  The claim's default case-insensitive matching
would make this filter match. -/
theorem C6_regex_default_counterexample :
    Model.matchQuery (.vobj [("f", .vstr "ABC")])
      (.vobj [("f", .vobj [("$regex", .vstr "abc")])]) = false := by
  rw [Model.matchQuery]
  simp only [Value.objEntries, List.attach, List.attachWith, List.pmap,
    List.all_cons, List.all_nil]
  simp only [String.reduceEq, reduceIte]
  simp only [Value.truthy, Value.typeofJS, Value.objEntries, List.all_cons,
    List.all_nil, Bool.true_and, String.reduceBEq, if_true, reduceIte]
  unfold Model.matchOp
  simp only [String.reduceEq, reduceIte]
  simp [Model.regexTest, Model.regexFlags, Value.toStringJS, Value.propGet,
    Value.objGet, Value.objEntries]
  decide

/-- C6 (corrected): a {field: {$regex: pattern}} entry without an explicit
$options key constructs the regex with no flags — matching is
case-sensitive by default — and tests it against the string coercion of
the field value (literal-pattern substring semantics in this model). -/
theorem C6_regex_default_case_sensitive (doc : Value) (key p : String)
    (hk1 : key ≠ "$and") (hk2 : key ≠ "$or") (hk3 : key ≠ "$nor") :
    Model.matchQuery doc (.vobj [(key, .vobj [("$regex", .vstr p)])]) =
      hasSub (Value.toStringJS (Value.propGet doc key)).data p.data := by
  rw [Model.matchQuery]
  simp only [Value.objEntries, List.attach, List.attachWith, List.pmap,
    List.all_cons, List.all_nil]
  rw [if_neg hk1, if_neg hk2, if_neg hk3]
  simp only [Value.truthy, Value.typeofJS, Value.objEntries, List.all_cons,
    List.all_nil, Bool.true_and, String.reduceBEq, if_true, reduceIte]
  unfold Model.matchOp
  simp only [String.reduceEq, reduceIte]
  simp [Model.regexTest, Model.regexFlags, Value.toStringJS, Value.objGet,
    Value.objEntries, strIncludes, hasSub, leadsWith]

/-- C6 witness: with pattern "b" and field value "abc" the entry matches
(substring, case-sensitive), and the theorem computes exactly that. -/
theorem C6_regex_default_case_sensitive_witness :
    Model.matchQuery (.vobj [("f", .vstr "abc")])
      (.vobj [("f", .vobj [("$regex", .vstr "b")])]) = true := by
  rw [C6_regex_default_case_sensitive (.vobj [("f", .vstr "abc")]) "f" "b"
    (by decide) (by decide) (by decide)]
  simp [Value.toStringJS, Value.propGet, Value.objGet]
  decide

/-! ### Update Operator Executor (Model._applyUpdateOperators) -/

namespace Value

/-- JavaScript ||: the left value when truthy, else the right. -/
def jsOr (a b : Value) : Value := if a.truthy then a else b

/-- JavaScript * on values (ToNumber both sides). -/
def jsMulV (a b : Value) : Value := .vnum ((toNumberJS a).mul (toNumberJS b))

/-- ToInt32-style wrap of an integer into the signed 32-bit range. -/
def int32wrap (i : Int) : Int :=
  let m := i % 4294967296
  if m ≥ 2147483648 then m - 4294967296 else m

/-- ToUint32 of a value (NaN and infinities to 0). -/
def toUint32 (v : Value) : Nat :=
  ((match toNumberJS v with
    | .q x => truncQ x
    | _ => 0) % 4294967296).toNat

/-- One bitwise step of the $bit operator. -/
def bitOpJS (f : Nat → Nat → Nat) (a b : Value) : Value :=
  .vnum (.q ((int32wrap (f (toUint32 a) (toUint32 b) : Nat) : Int) : ℚ))

end Value

namespace Model

/-- An update document (the mutable JavaScript object under mutation). -/
abbrev Obj := List (String × Value)

/-- One case of the operator switch in Model._applyUpdateOperators.  The
switch has no default arm, so an unrecognized operator key leaves the
document untouched. -/
def applyOneOperator (doc : Obj) (key : String) (value : Value)
    (upsert : Bool) (now : Int) : Obj :=
  if key = "$set" then
    (Value.objEntries value).foldl (fun d (f, v) => Value.objSet d f v) doc
  else if key = "$unset" then
    (Value.objEntries value).foldl (fun d (f, _) => Value.objDelete d f) doc
  else if key = "$inc" then
    (Value.objEntries value).foldl (fun d (f, amount) =>
      Value.objSet d f
        (Value.jsAdd (Value.jsOr (Value.objGet d f) (Value.vint 0)) amount)) doc
  else if key = "$mul" then
    (Value.objEntries value).foldl (fun d (f, factor) =>
      Value.objSet d f
        (Value.jsMulV (Value.jsOr (Value.objGet d f) (Value.vint 0)) factor)) doc
  else if key = "$min" then
    (Value.objEntries value).foldl (fun d (f, lim) =>
      Value.objSet d f
        (.vnum (JSNum.minJ
          (Value.toNumberJS (Value.jsOr (Value.objGet d f) (.vnum .inf)))
          (Value.toNumberJS lim)))) doc
  else if key = "$max" then
    (Value.objEntries value).foldl (fun d (f, lim) =>
      Value.objSet d f
        (.vnum (JSNum.maxJ
          (Value.toNumberJS (Value.jsOr (Value.objGet d f) (.vnum .ninf)))
          (Value.toNumberJS lim)))) doc
  else if key = "$rename" then
    (Value.objEntries value).foldl (fun d (oldF, newF) =>
      if (Value.objGet d oldF).isUndef then d
      else
        Value.objDelete
          (Value.objSet d (Value.toStringJS newF) (Value.objGet d oldF))
          oldF) doc
  else if key = "$currentDate" then
    (Value.objEntries value).foldl (fun d (f, typeSpec) =>
      Value.objSet d f
        (if Value.strictEq typeSpec (.vbool true) ||
            Value.strictEq (Value.propGet typeSpec "$type") (.vstr "date")
         then .vdate now else Value.vint now)) doc
  else if key = "$setOnInsert" then
    if upsert then
      (Value.objEntries value).foldl (fun d (f, v) => Value.objSet d f v) doc
    else doc
  else if key = "$push" then
    (Value.objEntries value).foldl (fun d (f, item) =>
      let cur := match Value.objGet d f with
        | .varr xs => xs
        | _ => []
      Value.objSet d f (.varr (cur ++ [item]))) doc
  else if key = "$pull" then
    (Value.objEntries value).foldl (fun d (f, q) =>
      match Value.objGet d f with
      | .varr xs =>
          Value.objSet d f (.varr (xs.filter fun item =>
            !(matchQuery (.vobj [("item", item)]) (.vobj [("item", q)]))))
      | _ => d) doc
  else if key = "$addToSet" then
    (Value.objEntries value).foldl (fun d (f, item) =>
      let cur := match Value.objGet d f with
        | .varr xs => xs
        | _ => []
      if cur.any fun x => Value.sameValueZero x item then
        Value.objSet d f (.varr cur)
      else Value.objSet d f (.varr (cur ++ [item]))) doc
  else if key = "$pop" then
    (Value.objEntries value).foldl (fun d (f, pos) =>
      match Value.objGet d f with
      | .varr xs =>
          if Value.strictEq pos (Value.vint (-1)) then
            Value.objSet d f (.varr (xs.drop 1))
          else Value.objSet d f (.varr xs.dropLast)
      | _ => d) doc
  else if key = "$pullAll" then
    (Value.objEntries value).foldl (fun d (f, items) =>
      match Value.objGet d f with
      | .varr xs =>
          Value.objSet d f (.varr (xs.filter fun item =>
            !((Value.asArray items).any fun y => Value.sameValueZero item y)))
      | _ => d) doc
  else if key = "$bit" then
    (Value.objEntries value).foldl (fun d (f, ops) =>
      match Value.objGet d f with
      | .vnum n =>
          let d1 := if (Value.propGet ops "and").isUndef then d
            else Value.objSet d f
              (Value.bitOpJS Nat.land (Value.objGet d f) (Value.propGet ops "and"))
          let d2 := if (Value.propGet ops "or").isUndef then d1
            else Value.objSet d1 f
              (Value.bitOpJS Nat.lor (Value.objGet d1 f) (Value.propGet ops "or"))
          if (Value.propGet ops "xor").isUndef then d2
          else Value.objSet d2 f
            (Value.bitOpJS Nat.xor (Value.objGet d2 f) (Value.propGet ops "xor"))
      | _ => d) doc
  else doc

/-- The operator loop of Model._applyUpdateOperators, before the version
and timestamp postconditions. -/
def applyOperatorsOnly (doc : Obj) (update : Value) (upsert : Bool)
    (now : Int) : Obj :=
  (Value.objEntries update).foldl
    (fun d kv => applyOneOperator d kv.1 kv.2 upsert now) doc

/-- Model.applyTimestamps: set createdAt when falsy, always refresh
updatedAt. -/
def applyTimestampsJ (doc : Obj) (now : Int) : Obj :=
  let d1 := if (Value.objGet doc "createdAt").truthy then doc
    else Value.objSet doc "createdAt" (.vdate now)
  Value.objSet d1 "updatedAt" (.vdate now)

/-- Model._applyUpdateOperators: the operator loop, then the version
increment (when the schema's versionKey option is not false), then the
timestamps. -/
def applyUpdateOperators (doc : Obj) (update : Value) (upsert : Bool)
    (versionKey : Bool) (now : Int) : Obj :=
  let d1 := applyOperatorsOnly doc update upsert now
  let d2 := if versionKey then
      Value.objSet d1 "__v"
        (Value.jsAdd (Value.jsOr (Value.objGet d1 "__v") (Value.vint 0))
          (Value.vint 1))
    else d1
  applyTimestampsJ d2 now

end Model

/-- Reading the key just written returns the written value. -/
theorem objGet_objSet_self (fs : Model.Obj) (k : String) (v : Value) :
    Value.objGet (Value.objSet fs k v) k = v := by
  induction fs with
  | nil => simp [Value.objSet, Value.objGet]
  | cons p rest ih =>
      obtain ⟨k', v'⟩ := p
      by_cases h : k' = k <;> simp [Value.objSet, Value.objGet, h, ih]

/-- Writing one key leaves every other key unchanged. -/
theorem objGet_objSet_other (fs : Model.Obj) (k k' : String) (v : Value)
    (h : k' ≠ k) : Value.objGet (Value.objSet fs k v) k' = Value.objGet fs k' := by
  have h' : ¬ k = k' := fun hh => h hh.symm
  induction fs with
  | nil => simp [Value.objSet, Value.objGet, h']
  | cons p rest ih =>
      obtain ⟨k0, v0⟩ := p
      by_cases h0 : k0 = k
      · subst h0
        simp [Value.objSet, Value.objGet, h']
      · simp [Value.objSet, Value.objGet, h0, ih]

/-- The update operator table of Model._applyUpdateOperators. -/
def supportedUpdateOps : List String :=
  ["$set", "$unset", "$inc", "$mul", "$min", "$max", "$rename",
   "$currentDate", "$setOnInsert", "$push", "$pull", "$addToSet", "$pop",
   "$pullAll", "$bit"]

/-- The operator switch has no default arm: an unrecognized key leaves the
document untouched. -/
theorem applyOneOperator_unknown (doc : Model.Obj) (key : String)
    (value : Value) (upsert : Bool) (now : Int)
    (h : key ∉ supportedUpdateOps) :
    Model.applyOneOperator doc key value upsert now = doc := by
  simp only [supportedUpdateOps, List.mem_cons, List.not_mem_nil, or_false,
    not_or] at h
  obtain ⟨h1, h2, h3, h4, h5, h6, h7, h8, h9, h10, h11, h12, h13, h14, h15⟩ := h
  unfold Model.applyOneOperator
  rw [if_neg h1, if_neg h2, if_neg h3, if_neg h4, if_neg h5, if_neg h6,
    if_neg h7, if_neg h8, if_neg h9, if_neg h10, if_neg h11, if_neg h12,
    if_neg h13, if_neg h14, if_neg h15]

/-- C9 (confirmed): an update spec whose top-level keys are all outside the
update-operator table is silently skipped — after the executor runs, every
field other than the version counter and the two timestamp fields reads
exactly as before, and no error is possible (the embedding is total). -/
theorem C9_unknown_update_ops_frame (doc : Model.Obj) (update : Value)
    (upsert versionKey : Bool) (now : Int) (f : String)
    (hops : ∀ p ∈ Value.objEntries update, p.1 ∉ supportedUpdateOps)
    (hf1 : f ≠ "__v") (hf2 : f ≠ "createdAt") (hf3 : f ≠ "updatedAt") :
    Value.objGet (Model.applyUpdateOperators doc update upsert versionKey now) f =
      Value.objGet doc f := by
  have hfold : ∀ (l : List (String × Value)) (d : Model.Obj),
      (∀ p ∈ l, p.1 ∉ supportedUpdateOps) →
      l.foldl (fun d kv => Model.applyOneOperator d kv.1 kv.2 upsert now) d = d := by
    intro l
    induction l with
    | nil => intro d _; rfl
    | cons p rest ih =>
        intro d hl
        simp only [List.foldl_cons]
        rw [applyOneOperator_unknown d p.1 p.2 upsert now (hl p (by simp))]
        exact ih d (fun q hq => hl q (by simp [hq]))
  have hmid : Model.applyOperatorsOnly doc update upsert now = doc :=
    hfold _ doc hops
  simp only [Model.applyUpdateOperators, Model.applyTimestampsJ, hmid]
  rw [objGet_objSet_other _ _ _ _ hf3]
  split_ifs <;>
    simp [objGet_objSet_other _ _ _ _ hf1, objGet_objSet_other _ _ _ _ hf2]

/-- C9 witness: a spec with the single unknown operator $foo leaves field a
unchanged. -/
theorem C9_unknown_update_ops_frame_witness :
    Value.objGet
      (Model.applyUpdateOperators [("a", Value.vint 1)]
        (.vobj [("$foo", .vnull)]) false true 0) "a" =
      Value.objGet [("a", Value.vint 1)] "a" :=
  C9_unknown_update_ops_frame [("a", Value.vint 1)] (.vobj [("$foo", .vnull)])
    false true 0 "a" (by decide) (by decide) (by decide) (by decide)

/-- C8 (confirmed): with versioning enabled, after the operator loop the
executor increments the version counter by exactly one (a missing counter
counts as 0) and refreshes the update timestamp to the current time, for
every document and every update spec. -/
theorem C8_version_increment_and_timestamp (doc : Model.Obj) (update : Value)
    (upsert : Bool) (now : Int) (k : ℚ)
    (hk : Value.objGet (Model.applyOperatorsOnly doc update upsert now) "__v" =
            Value.vnum (.q k) ∨
          (Value.objGet (Model.applyOperatorsOnly doc update upsert now) "__v" =
            .vundef ∧ k = 0)) :
    Value.objGet (Model.applyUpdateOperators doc update upsert true now) "__v" =
      Value.vnum (.q (k + 1)) ∧
    Value.objGet (Model.applyUpdateOperators doc update upsert true now)
      "updatedAt" = .vdate now := by
  constructor
  · simp only [Model.applyUpdateOperators, Model.applyTimestampsJ, if_true]
    rw [objGet_objSet_other _ _ _ _ (by decide)]
    split_ifs with hc
    · rw [objGet_objSet_self]
      rcases hk with hk | ⟨hk, hk0⟩
      · rw [hk]
        by_cases h0 : k = 0
        · subst h0
          simp [Value.jsOr, Value.truthy, Value.vint, Value.jsAdd,
            Value.toPrimJS, Value.toNumberJS, JSNum.add]
        · simp [Value.jsOr, Value.truthy, Value.vint, Value.jsAdd,
            Value.toPrimJS, Value.toNumberJS, JSNum.add, h0]
      · subst hk0
        rw [hk]
        simp [Value.jsOr, Value.truthy, Value.vint, Value.jsAdd,
          Value.toPrimJS, Value.toNumberJS, JSNum.add]
    · rw [objGet_objSet_other _ _ _ _ (by decide), objGet_objSet_self]
      rcases hk with hk | ⟨hk, hk0⟩
      · rw [hk]
        by_cases h0 : k = 0
        · subst h0
          simp [Value.jsOr, Value.truthy, Value.vint, Value.jsAdd,
            Value.toPrimJS, Value.toNumberJS, JSNum.add]
        · simp [Value.jsOr, Value.truthy, Value.vint, Value.jsAdd,
            Value.toPrimJS, Value.toNumberJS, JSNum.add, h0]
      · subst hk0
        rw [hk]
        simp [Value.jsOr, Value.truthy, Value.vint, Value.jsAdd,
          Value.toPrimJS, Value.toNumberJS, JSNum.add]
  · simp only [Model.applyUpdateOperators, Model.applyTimestampsJ, if_true]
    rw [objGet_objSet_self]

/-- C8 witness: a $set update on a document with version 3 ends with
version 4 and updatedAt refreshed. -/
theorem C8_version_increment_and_timestamp_witness :
    Value.objGet
      (Model.applyUpdateOperators [("__v", Value.vint 3)]
        (.vobj [("$set", .vobj [("a", Value.vint 7)])]) false true 5) "__v" =
      Value.vnum (.q 4) ∧
    Value.objGet
      (Model.applyUpdateOperators [("__v", Value.vint 3)]
        (.vobj [("$set", .vobj [("a", Value.vint 7)])]) false true 5)
      "updatedAt" = .vdate 5 := by
  have h := C8_version_increment_and_timestamp [("__v", Value.vint 3)]
    (.vobj [("$set", .vobj [("a", Value.vint 7)])]) false 5 3
    (by
      left
      unfold Model.applyOperatorsOnly
      simp [Value.objEntries, Model.applyOneOperator, Value.objSet,
        Value.objGet, Value.vint])
  have : ((3 : ℚ) + 1) = 4 := by norm_num
  rw [this] at h
  exact h

/-! ### String transform lemmas (for cast idempotence) -/

/-- Char.ofNat below the surrogate range reads back its code point. -/
theorem toNat_charOfNat (n : Nat) (h : n < 55296) : (Char.ofNat n).toNat = n := by
  unfold Char.ofNat
  rw [dif_pos (Or.inl h)]
  simp [Char.ofNatAux, Char.toNat, UInt32.toNat, BitVec.toNat_ofNatLt]

/-- lowC fixes characters outside the upper-case range. -/
theorem lowC_fix (c : Char) (h : ¬(65 ≤ c.toNat ∧ c.toNat ≤ 90)) :
    lowC c = c := by rw [lowC, if_neg h]

/-- upC fixes characters outside the lower-case range. -/
theorem upC_fix (c : Char) (h : ¬(97 ≤ c.toNat ∧ c.toNat ≤ 122)) :
    upC c = c := by rw [upC, if_neg h]

/-- The code point of a lowered character is never in the upper-case range. -/
theorem lowC_not_upperRange (c : Char) :
    ¬(65 ≤ (lowC c).toNat ∧ (lowC c).toNat ≤ 90) := by
  rw [lowC]
  by_cases h : 65 ≤ c.toNat ∧ c.toNat ≤ 90
  · rw [if_pos h, toNat_charOfNat _ (by omega)]
    omega
  · rw [if_neg h]; exact h

/-- The code point of an uppered character is never in the lower-case range. -/
theorem upC_not_lowerRange (c : Char) :
    ¬(97 ≤ (upC c).toNat ∧ (upC c).toNat ≤ 122) := by
  rw [upC]
  by_cases h : 97 ≤ c.toNat ∧ c.toNat ≤ 122
  · rw [if_pos h, toNat_charOfNat _ (by omega)]
    omega
  · rw [if_neg h]; exact h

/-- Lowering is idempotent on characters. -/
theorem lowC_lowC (c : Char) : lowC (lowC c) = lowC c :=
  lowC_fix _ (lowC_not_upperRange c)

/-- Uppering is idempotent on characters. -/
theorem upC_upC (c : Char) : upC (upC c) = upC c :=
  upC_fix _ (upC_not_lowerRange c)

/-- Lower-upper-lower collapses to lower on characters. -/
theorem lowC_upC_lowC (c : Char) : lowC (upC (lowC c)) = lowC c := by
  by_cases h : 65 ≤ c.toNat ∧ c.toNat ≤ 90
  · have h1 : lowC c = Char.ofNat (c.toNat + 32) := by rw [lowC, if_pos h]
    have h2 : (lowC c).toNat = c.toNat + 32 := by
      rw [h1, toNat_charOfNat _ (by omega)]
    have h3 : upC (lowC c) = Char.ofNat ((lowC c).toNat - 32) := by
      rw [upC, if_pos (by rw [h2]; omega)]
    have h4 : (upC (lowC c)).toNat = c.toNat := by
      rw [h3, h2, toNat_charOfNat _ (by omega)]
      omega
    have h5 : lowC (upC (lowC c)) = Char.ofNat ((upC (lowC c)).toNat + 32) := by
      rw [lowC, if_pos (by rw [h4]; exact h)]
    rw [h5, h4, ← h1]
  · rw [lowC_fix c h]
    by_cases h' : 97 ≤ c.toNat ∧ c.toNat ≤ 122
    · have h1 : upC c = Char.ofNat (c.toNat - 32) := by rw [upC, if_pos h']
      have h2 : (upC c).toNat = c.toNat - 32 := by
        rw [h1, toNat_charOfNat _ (by omega)]
      have h3 : lowC (upC c) = Char.ofNat ((upC c).toNat + 32) := by
        rw [lowC, if_pos (by rw [h2]; omega)]
      rw [h3, h2]
      have he : c.toNat - 32 + 32 = c.toNat := by omega
      rw [he, Char.ofNat_toNat]
    · rw [upC_fix c h', lowC_fix c h]

/-- Characters with code point at least 33 are not whitespace. -/
theorem wsChar_false_of_ge (c : Char) (h : 33 ≤ c.toNat) : wsChar c = false := by
  have hs : c ≠ ' ' := fun he => by subst he; exact absurd h (by decide)
  have ht : c ≠ '\t' := fun he => by subst he; exact absurd h (by decide)
  have hn : c ≠ '\n' := fun he => by subst he; exact absurd h (by decide)
  have hr : c ≠ '\r' := fun he => by subst he; exact absurd h (by decide)
  simp [wsChar, hs, ht, hn, hr]

/-- Lowering preserves whitespace-ness. -/
theorem wsChar_lowC (c : Char) : wsChar (lowC c) = wsChar c := by
  by_cases h : 65 ≤ c.toNat ∧ c.toNat ≤ 90
  · have h2 : (lowC c).toNat = c.toNat + 32 := by
      rw [lowC, if_pos h, toNat_charOfNat _ (by omega)]
    rw [wsChar_false_of_ge _ (by omega), wsChar_false_of_ge _ (by omega)]
  · rw [lowC_fix c h]

/-- Uppering preserves whitespace-ness. -/
theorem wsChar_upC (c : Char) : wsChar (upC c) = wsChar c := by
  by_cases h : 97 ≤ c.toNat ∧ c.toNat ≤ 122
  · have h2 : (upC c).toNat = c.toNat - 32 := by
      rw [upC, if_pos h, toNat_charOfNat _ (by omega)]
    rw [wsChar_false_of_ge _ (by omega), wsChar_false_of_ge _ (by omega)]
  · rw [upC_fix c h]

/-- The head surviving dropWhile fails the predicate. -/
theorem dropWhile_head_false (p : Char → Bool) (l : List Char) (x : Char)
    (xs : List Char) (h : l.dropWhile p = x :: xs) : p x = false := by
  induction l with
  | nil => simp [List.dropWhile] at h
  | cons y ys ih =>
      rw [List.dropWhile_cons] at h
      by_cases hy : p y = true
      · rw [if_pos hy] at h; exact ih h
      · rw [if_neg hy] at h
        cases h
        simpa using hy

/-- A nonempty dropWhile keeps the last element of the list. -/
theorem dropWhile_getLast? (p : Char → Bool) (l : List Char)
    (h : l.dropWhile p ≠ []) : (l.dropWhile p).getLast? = l.getLast? := by
  induction l with
  | nil => simp [List.dropWhile] at h
  | cons y ys ih =>
      rw [List.dropWhile_cons] at h ⊢
      by_cases hy : p y = true
      · rw [if_pos hy] at h ⊢
        have hys : ys ≠ [] := by
          intro he
          subst he
          simp [List.dropWhile] at h
        obtain ⟨z, zs, rfl⟩ := List.exists_cons_of_ne_nil hys
        rw [List.getLast?_cons_cons]
        exact ih h
      · rw [if_neg hy]

/-- dropWhile leaves a list alone when its head fails the predicate. -/
theorem dropWhile_eq_self_of_head (p : Char → Bool) (l : List Char)
    (x : Char) (hh : l.head? = some x) (hp : p x = false) :
    l.dropWhile p = l := by
  cases l with
  | nil => rfl
  | cons y ys =>
      simp only [List.head?_cons, Option.some.injEq] at hh
      subst hh
      rw [List.dropWhile_cons, if_neg (by simp [hp])]

/-- trim is idempotent on character lists. -/
theorem trimList_idem (l : List Char) : trimList (trimList l) = trimList l := by
  unfold trimList
  cases hB : ((l.dropWhile wsChar).reverse.dropWhile wsChar) with
  | nil => simp
  | cons b bs =>
      have hb : wsChar b = false := dropWhile_head_false _ _ _ _ hB
      cases hA : l.dropWhile wsChar with
      | nil => rw [hA] at hB; simp [List.dropWhile] at hB
      | cons a as =>
          have ha : wsChar a = false := dropWhile_head_false _ _ _ _ hA
          have hlast : (b :: bs).getLast? = some a := by
            rw [← hB, dropWhile_getLast? _ _ (by rw [hB]; simp),
              List.getLast?_reverse, hA, List.head?_cons]
          have h1 : (b :: bs).reverse.dropWhile wsChar = (b :: bs).reverse := by
            refine dropWhile_eq_self_of_head _ _ a ?_ ha
            rw [List.head?_reverse]
            exact hlast
          rw [h1, List.reverse_reverse]
          rw [List.dropWhile_cons, if_neg (by simp [hb])]

/-- trim is idempotent on strings. -/
theorem trimStr_idem (s : String) : trimStr (trimStr s) = trimStr s := by
  simp [trimStr, trimList_idem]

/-- toLowerCase is idempotent. -/
theorem lowerStr_idem (s : String) : lowerStr (lowerStr s) = lowerStr s := by
  simp only [lowerStr, List.map_map]
  exact congrArg String.mk (List.map_congr_left fun c _ => lowC_lowC c)

/-- toUpperCase is idempotent. -/
theorem upperStr_idem (s : String) : upperStr (upperStr s) = upperStr s := by
  simp only [upperStr, List.map_map]
  exact congrArg String.mk (List.map_congr_left fun c _ => upC_upC c)

/-- trim commutes with toLowerCase. -/
theorem trimStr_lowerStr (s : String) :
    trimStr (lowerStr s) = lowerStr (trimStr s) := by
  have hf : (wsChar ∘ lowC) = wsChar := funext fun c => wsChar_lowC c
  simp only [trimStr, lowerStr, trimList]
  exact congrArg String.mk (by
    rw [List.dropWhile_map, hf, ← List.map_reverse, List.dropWhile_map, hf,
      ← List.map_reverse])

/-- trim commutes with toUpperCase. -/
theorem trimStr_upperStr (s : String) :
    trimStr (upperStr s) = upperStr (trimStr s) := by
  have hf : (wsChar ∘ upC) = wsChar := funext fun c => wsChar_upC c
  simp only [trimStr, upperStr, trimList]
  exact congrArg String.mk (by
    rw [List.dropWhile_map, hf, ← List.map_reverse, List.dropWhile_map, hf,
      ← List.map_reverse])

/-- lower-upper-lower collapses to lower on strings. -/
theorem lowerStr_upperStr_lowerStr (s : String) :
    lowerStr (upperStr (lowerStr s)) = lowerStr s := by
  simp only [lowerStr, upperStr, List.map_map]
  exact congrArg String.mk (List.map_congr_left fun c _ => lowC_upC_lowC c)

/-- The string-transform chain of SchemaType.cast: trim, lowercase,
uppercase, each applied when its flag is set, in this order. -/
def strTransforms (tF lF uF : Bool) (s : String) : String :=
  let s1 := if tF then trimStr s else s
  let s2 := if lF then lowerStr s1 else s1
  if uF then upperStr s2 else s2

/-- The transform chain is idempotent. -/
theorem strTransforms_idem (tF lF uF : Bool) (s : String) :
    strTransforms tF lF uF (strTransforms tF lF uF s) =
      strTransforms tF lF uF s := by
  cases tF <;> cases lF <;> cases uF <;>
    simp only [strTransforms, Bool.false_eq_true, eq_self_iff_true, if_true,
      if_false]
  all_goals first
    | rfl
    | exact upperStr_idem _
    | exact lowerStr_idem _
    | exact trimStr_idem _
    | rw [lowerStr_upperStr_lowerStr]
    | (rw [trimStr_upperStr, trimStr_idem]; exact upperStr_idem _)
    | (rw [trimStr_lowerStr, trimStr_idem]; exact lowerStr_idem _)
    | rw [trimStr_upperStr, trimStr_lowerStr, trimStr_idem,
        lowerStr_upperStr_lowerStr]

/-! ### Schema Type Descriptor (SchemaType.cast) -/

/-- Declared instance type of a schema path (the constructor compared in
the switch of SchemaType.cast).  otherT covers any instance outside the
switch cases. -/
inductive InstKind where
  | strT
  | numT
  | dateT
  | boolT
  | otherT
deriving DecidableEq

/-- new Date(v) for a non-Date value: numbers become epoch milliseconds.
String date parsing is not modelled (no claim depends on it); every other
shape maps to epoch 0. -/
def dateFromValue : Value → Int
  | .vnum (.q x) => Value.truncQ x
  | .vdate t => t
  | _ => 0

/-- SchemaTypeDescriptor: instance kind, array-ness with the optional
element SchemaType, enum set, numeric min/max, the regex pattern as its
test function, string-transform flags, and the static and instance setter
chains (in the order cast applies them). -/
inductive Descriptor where
  | mk (inst : InstKind) (isArr : Bool) (arrayType : Option Descriptor)
      (enumVals : Option (List Value)) (minV maxV : Option Value)
      (matchTest : Option (String → Bool)) (trimF lowerF upperF : Bool)
      (staticSetters instSetters : List (Value → Value))

/-- Whether the descriptor (and, recursively, its array element
descriptor) registers no setters. -/
def noSetters : Descriptor → Bool
  | .mk _ _ arrayType _ _ _ _ _ _ _ sSets iSets =>
      sSets.isEmpty && iSets.isEmpty &&
        (match arrayType with
          | some d => noSetters d
          | none => true)

/-- The val == null guard of cast (loose equality: undefined or null). -/
def isNullish : Value → Bool
  | .vundef => true
  | .vnull => true
  | _ => false

/-- The type-specific coercion step of SchemaType.cast (the switch on
this.instance, including the string transforms inside the String case). -/
def coerceInst (inst : InstKind) (tF lF uF : Bool) (v : Value) : Value :=
  match inst with
  | .strT => .vstr (strTransforms tF lF uF (Value.toStringJS v))
  | .numT => .vnum (Value.toNumberJS v)
  | .dateT =>
      match v with
      | .vdate t => .vdate t
      | w => .vdate (dateFromValue w)
  | .boolT => .vbool v.truthy
  | .otherT => v

/-- The enum constraint of cast fails. -/
def enumFails (enumVals : Option (List Value)) (v1 : Value) : Bool :=
  match enumVals with
  | some es => !(es.any fun e => Value.sameValueZero v1 e)
  | none => false

/-- The minimum constraint of cast fails (val < this._min). -/
def minFails (minV : Option Value) (v1 : Value) : Bool :=
  match minV with
  | some m => Value.jsLtB v1 m
  | none => false

/-- The maximum constraint of cast fails (val > this._max). -/
def maxFails (maxV : Option Value) (v1 : Value) : Bool :=
  match maxV with
  | some m => Value.jsLtB m v1
  | none => false

/-- The regex constraint of cast fails (string values only). -/
def matchFails (matchTest : Option (String → Bool)) (v1 : Value) : Bool :=
  match matchTest, v1 with
  | some t, .vstr s => !(t s)
  | _, _ => false

/-- Array payload of a value (Array.isArray guard). -/
def arrOf : Value → Option (List Value)
  | .varr xs => some xs
  | _ => none

/-- The array payload is smaller than the array value. -/
theorem sizeOf_lt_of_arrOf {v : Value} {xs : List Value}
    (h : arrOf v = some xs) : sizeOf xs < sizeOf v := by
  cases v <;> simp [arrOf] at h
  case varr ys =>
    subst h
    simp

mutual

/-- SchemaType.cast: null and undefined pass through; an array instance
casts each item through the element SchemaType; otherwise the value is
coerced to the declared instance type (with the string transforms), then
checked against enum, min, max and the regex, and finally pushed through
the static and instance setter chains.  A failed coercion or constraint
is the thrown CastError. -/
def castV : Descriptor → Value → Except String Value
  | .mk inst isArr arrayType enumVals minV maxV matchTest trimF lowerF upperF
      sSets iSets, v =>
    if isNullish v then .ok v
    else if isArr then
      match h : arrOf v with
      | some xs => (castListV arrayType xs).map .varr
      | none => .error "must be an array"
    else
      if enumFails enumVals (coerceInst inst trimF lowerF upperF v) then
        .error "is not a valid enum value"
      else if minFails minV (coerceInst inst trimF lowerF upperF v) then
        .error "is less than the minimum value"
      else if maxFails maxV (coerceInst inst trimF lowerF upperF v) then
        .error "is greater than the maximum value"
      else if matchFails matchTest (coerceInst inst trimF lowerF upperF v) then
        .error "does not match the required pattern"
      else
        .ok (iSets.foldl (fun acc f => f acc)
          (sSets.foldl (fun acc f => f acc)
            (coerceInst inst trimF lowerF upperF v)))
termination_by d v => sizeOf d + sizeOf v
decreasing_by
  have hlt := sizeOf_lt_of_arrOf h
  simp
  all_goals omega

/-- The element-wise cast of an array value (SchemaType._castArrayItem
mapped over the array): items pass through unchanged when _arrayType is
not a SchemaType. -/
def castListV : Option Descriptor → List Value → Except String (List Value)
  | none, xs => .ok xs
  | some _, [] => .ok []
  | some d, x :: xs => do
      let y ← castV d x
      let ys ← castListV (some d) xs
      .ok (y :: ys)
termination_by o xs => sizeOf o + sizeOf xs
decreasing_by
  all_goals simp
  all_goals omega

end

/-- The coercion step is idempotent. -/
theorem coerceInst_idem (inst : InstKind) (tF lF uF : Bool) (v : Value) :
    coerceInst inst tF lF uF (coerceInst inst tF lF uF v) =
      coerceInst inst tF lF uF v := by
  cases inst with
  | strT => simp [coerceInst, Value.toStringJS, strTransforms_idem]
  | numT => simp [coerceInst, Value.toNumberJS]
  | dateT => cases v <;> simp [coerceInst]
  | boolT => simp [coerceInst, Value.truthy]
  | otherT => rfl

/-- The coercion step never produces null or undefined from a non-nullish
input. -/
theorem coerceInst_not_nullish (inst : InstKind) (tF lF uF : Bool)
    (v : Value) (hv : isNullish v = false) :
    isNullish (coerceInst inst tF lF uF v) = false := by
  cases inst <;> cases v <;> simp_all [coerceInst, isNullish]

/-- Cast idempotence for setter-free descriptors, by strong induction on
descriptor size (the array case recurses into the element descriptor). -/
theorem castV_idem_aux :
    ∀ (n : Nat) (d : Descriptor), sizeOf d ≤ n → noSetters d = true →
      ∀ v w, castV d v = .ok w → castV d w = .ok w := by
  intro n
  induction n with
  | zero =>
      intro d hd
      exfalso
      cases d
      simp at hd
  | succ n ih =>
      intro d hdn hns v w hvw
      obtain ⟨inst, isArr, arrayType, enumVals, minV, maxV, matchTest, tF, lF,
        uF, sSets, iSets⟩ := d
      unfold noSetters at hns
      simp only [Bool.and_eq_true, List.isEmpty_iff] at hns
      have hsS : sSets = [] := hns.1.1
      have hiS : iSets = [] := hns.1.2
      have hArrNs : ∀ d', arrayType = some d' → noSetters d' = true := by
        intro d' hd'
        have h3 := hns.2
        rw [hd'] at h3
        exact h3
      subst hsS
      subst hiS
      rw [castV] at hvw
      by_cases h1 : isNullish v = true
      · rw [if_pos h1] at hvw
        injection hvw with hw
        subst hw
        rw [castV]
        rw [if_pos h1]
      · rw [if_neg h1] at hvw
        by_cases h2 : isArr = true
        · rw [if_pos h2] at hvw
          cases v with
          | varr xs =>
              simp only [arrOf] at hvw
              cases hcl : castListV arrayType xs with
              | error e => rw [hcl] at hvw; simp [Except.map] at hvw
              | ok ys =>
                  rw [hcl] at hvw
                  simp only [Except.map] at hvw
                  injection hvw with hw
                  subst hw
                  rw [castV]
                  rw [if_neg (by simp [isNullish]), if_pos h2]
                  have hys : castListV arrayType ys = .ok ys := by
                    cases arrayType with
                    | none =>
                        simp only [castListV] at hcl
                        injection hcl with hys'
                        subst hys'
                        simp [castListV]
                    | some d' =>
                        have hd' : sizeOf d' ≤ n := by
                          simp at hdn
                          omega
                        have hns' : noSetters d' = true := hArrNs d' rfl
                        have hlist : ∀ (zs ws : List Value),
                            castListV (some d') zs = .ok ws →
                            castListV (some d') ws = .ok ws := by
                          intro zs
                          induction zs with
                          | nil =>
                              intro ws h
                              simp only [castListV] at h
                              injection h with h
                              subst h
                              simp [castListV]
                          | cons x xt iht =>
                              intro ws h
                              simp only [castListV, bind, Except.bind] at h
                              cases hx : castV d' x with
                              | error e => rw [hx] at h; simp at h
                              | ok y =>
                                  rw [hx] at h
                                  cases hxt : castListV (some d') xt with
                                  | error e => rw [hxt] at h; simp at h
                                  | ok ys' =>
                                      rw [hxt] at h
                                      simp only [Except.ok.injEq] at h
                                      subst h
                                      simp only [castListV, bind, Except.bind]
                                      rw [ih d' hd' hns' x y hx,
                                        iht ys' hxt]
                        exact hlist xs ys hcl
                  simp only [arrOf]
                  rw [hys]
                  rfl
          | vundef => simp [isNullish] at h1
          | vnull => simp [isNullish] at h1
          | vbool b =>
              simp only [arrOf] at hvw
              exact Except.noConfusion hvw
          | vnum m =>
              simp only [arrOf] at hvw
              exact Except.noConfusion hvw
          | vstr s =>
              simp only [arrOf] at hvw
              exact Except.noConfusion hvw
          | vdate t =>
              simp only [arrOf] at hvw
              exact Except.noConfusion hvw
          | vobj fs =>
              simp only [arrOf] at hvw
              exact Except.noConfusion hvw
        · rw [if_neg h2] at hvw
          by_cases c1 : enumFails enumVals (coerceInst inst tF lF uF v) = true
          · rw [if_pos c1] at hvw; exact Except.noConfusion hvw
          rw [if_neg c1] at hvw
          by_cases c2 : minFails minV (coerceInst inst tF lF uF v) = true
          · rw [if_pos c2] at hvw; exact Except.noConfusion hvw
          rw [if_neg c2] at hvw
          by_cases c3 : maxFails maxV (coerceInst inst tF lF uF v) = true
          · rw [if_pos c3] at hvw; exact Except.noConfusion hvw
          rw [if_neg c3] at hvw
          by_cases c4 : matchFails matchTest (coerceInst inst tF lF uF v) = true
          · rw [if_pos c4] at hvw; exact Except.noConfusion hvw
          rw [if_neg c4] at hvw
          simp only [List.foldl_nil] at hvw
          injection hvw with hw
          subst hw
          rw [castV]
          rw [if_neg (by
            rw [Bool.not_eq_true] at h1 ⊢
            exact coerceInst_not_nullish inst tF lF uF v h1)]
          rw [if_neg h2]
          simp only [coerceInst_idem]
          rw [if_neg c1, if_neg c2, if_neg c3, if_neg c4]
          simp only [List.foldl_nil]

/-- A Number-typed descriptor with one user-registered setter adding 1
(schema option set: v => v + 1). -/
def descPlusOne : Descriptor :=
  .mk .numT false none none none none none false false false []
    [fun v => Value.jsAdd v (Value.vint 1)]

/-- C4 counterexample: with a user-registered setter in the cast chain,
casting is not idempotent: cast(5) = 6 but cast(cast(5)) = cast(6) = 7. -/
theorem C4_cast_idem_counterexample :
    castV descPlusOne (Value.vint 5) = .ok (Value.vint 6) ∧
    castV descPlusOne (Value.vint 6) = .ok (Value.vint 7) ∧
    Value.vint 7 ≠ Value.vint 6 := by
  refine ⟨?_, ?_, ?_⟩
  · rw [descPlusOne, castV]
    simp [isNullish, enumFails, minFails, maxFails, matchFails, coerceInst,
      Value.toNumberJS, Value.vint, Value.jsAdd, Value.toPrimJS, JSNum.add]
    try norm_num
  · rw [descPlusOne, castV]
    simp [isNullish, enumFails, minFails, maxFails, matchFails, coerceInst,
      Value.toNumberJS, Value.vint, Value.jsAdd, Value.toPrimJS, JSNum.add]
    try norm_num
  · simp [Value.vint]
    try norm_num

/-- C4 (corrected): casting is idempotent for every descriptor whose cast
chain registers no user setters (recursively through the array element
descriptor): whenever cast accepts v producing w, casting w reproduces w
unchanged. -/
theorem C4_cast_idempotent_no_setters (d : Descriptor)
    (h : noSetters d = true) (v w : Value) (hvw : castV d v = .ok w) :
    castV d w = .ok w :=
  castV_idem_aux (sizeOf d) d le_rfl h v w hvw

/-- C4 witness: a lowercasing String descriptor casts "AbC" to "abc", and
casting the result again is stable. -/
theorem C4_cast_idempotent_no_setters_witness :
    castV (.mk .strT false none none none none none false true false [] [])
      (.vstr "abc") = .ok (.vstr "abc") := by
  have h5 : castV (.mk .strT false none none none none none false true false [] [])
      (.vstr "AbC") = .ok (.vstr "abc") := by
    rw [castV]
    simp [isNullish, enumFails, minFails, maxFails, matchFails, coerceInst,
      Value.toStringJS, strTransforms]
    decide
  exact C4_cast_idempotent_no_setters _ (by rw [noSetters]; rfl) _ _ h5

/-! ### Aggregate utility methods (_getFieldValue, _setFieldValue) -/

/-- Split a character list at dots (String.prototype.split with a
single-character separator). -/
def splitDotAux : List Char → List Char → List (List Char)
  | [], acc => [acc.reverse]
  | c :: rest, acc =>
      if c = '.' then acc.reverse :: splitDotAux rest []
      else splitDotAux rest (c :: acc)

/-- path.split of a dot-separated path. -/
def splitDots (s : String) : List String :=
  (splitDotAux s.data []).map fun l => ⟨l⟩

namespace Aggregate

/-- One path segment of Aggregate._getFieldValue: null propagates as null,
an array maps the segment over its elements, an object reads the
property, and any other base yields undefined. -/
def getOne (v : Value) (p : String) : Value :=
  match v with
  | .vnull => .vnull
  | .vundef => .vnull
  | .varr xs => .varr (xs.attach.map fun ⟨x, _⟩ => getOne x p)
  | .vobj fs => Value.objGet fs p
  | _ => .vundef
termination_by sizeOf v
decreasing_by
  have h := List.sizeOf_lt_of_mem (by assumption : x ∈ xs)
  simp
  omega

/-- The segment loop of Aggregate._getFieldValue.  Faithful to the source:
when an intermediate value is an array, the remaining path segments are
discarded and only the current segment is mapped over the elements; a
nullish intermediate returns null; a primitive intermediate reads
undefined and continues. -/
def getFieldParts (v : Value) : List String → Value
  | [] => v
  | p :: rest =>
      match v with
      | .vnull => .vnull
      | .vundef => .vnull
      | .varr xs => .varr (xs.attach.map fun ⟨x, _⟩ => getOne x p)
      | .vobj fs => getFieldParts (Value.objGet fs p) rest
      | _ => getFieldParts .vundef rest

/-- Aggregate._getFieldValue: empty path returns the document, otherwise
the dot-split segment loop. -/
def getFieldValue (doc : Value) (path : String) : Value :=
  if path = "" then doc else getFieldParts doc (splitDots path)

/-- The value of a document after Aggregate._setFieldValue runs on it:
the source walks parts.reduce((obj, key) => obj[key], doc) to the
target object and assigns target[last] = value in place; observing the
document afterwards shows the path's last segment rebound.  A write
whose target is not an object leaves no trace in the document value
(the source's property-set on a primitive or array target is not
representable in the document domain). -/
def setFieldParts (v : Value) (parts : List String) (nv : Value) : Value :=
  match parts with
  | [] => v
  | [last] =>
      match v with
      | .vobj fs => .vobj (Value.objSet fs last nv)
      | other => other
  | p :: rest =>
      match v with
      | .vobj fs => .vobj (Value.objSet fs p (setFieldParts (Value.objGet fs p) rest nv))
      | other => other

/-- Aggregate._setFieldValue: the document's value after the in-place
write. -/
def setFieldValue (doc : Value) (path : String) (nv : Value) : Value :=
  setFieldParts doc (splitDots path) nv

/-- The unwound field path: a leading $ is stripped. -/
def fieldPathOf (path : String) : String :=
  match path.data with
  | '$' :: _ => path.drop 1
  | _ => path

/-- Aggregate._unwind with the source's reference semantics made
explicit.  Each loop iteration builds the shallow copy \x7b ...doc \x7d
and runs _setFieldValue(newDoc, fieldPath, item).  When the dot-split
path has one segment, the reduce over the empty parts list returns the
copy itself, so the write lands on the copy's own top level: one
independent output per element.  When the path has two or more
segments, the reduce descends through top-level values the copy SHARES
with the original document and with every other copy, so each write
mutates the one nested object they all alias; once the stage returns,
every emitted copy (its top level never changed) shows the document
after the LAST write.  The fold threads that mutation; the emitted
copies are resolved against the final state.  A document whose path is
not an array is pushed through unchanged. -/
def unwind (docs : List Value) (path : String) : List Value :=
  docs.bind fun doc =>
    match arrOf (getFieldValue doc (fieldPathOf path)) with
    | some xs =>
        match splitDots (fieldPathOf path) with
        | [last] =>
            xs.map fun item =>
              .vobj (Value.objSet (Value.objEntries doc) last item)
        | parts =>
            let final := xs.foldl (fun d item => setFieldParts d parts item) doc
            xs.map fun _ => .vobj (Value.objEntries final)
    | none => [doc]

end Aggregate

/-- Re-setting the same key overwrites the earlier set. -/
theorem objSet_objSet (fs : List (String × Value)) (k : String)
    (a b : Value) :
    Value.objSet (Value.objSet fs k a) k b = Value.objSet fs k b := by
  induction fs with
  | nil => simp [Value.objSet]
  | cons hd tl ih =>
      by_cases h : hd.1 = k
      · simp [Value.objSet, h]
      · simp [Value.objSet, h, ih]

/-- Writing the same path twice keeps only the second write. -/
theorem setFieldParts_overwrite (parts : List String) :
    ∀ (d a b : Value),
      Aggregate.setFieldParts (Aggregate.setFieldParts d parts a) parts b =
        Aggregate.setFieldParts d parts b := by
  induction parts with
  | nil => intro d a b; rfl
  | cons p rest ih =>
      intro d a b
      cases rest with
      | nil =>
          cases d <;>
            simp [Aggregate.setFieldParts, objSet_objSet]
      | cons q rest2 =>
          cases d <;>
            simp [Aggregate.setFieldParts, objSet_objSet,
              objGet_objSet_self, ih]

/-- The loop of same-path in-place writes ends in the last one. -/
theorem setFold_last (parts : List String) (xs : List Value)
    (hne : xs ≠ []) (d : Value) :
    xs.foldl (fun d it => Aggregate.setFieldParts d parts it) d =
      Aggregate.setFieldParts d parts (xs.getLast hne) := by
  induction xs generalizing d with
  | nil => exact absurd rfl hne
  | cons x t ih =>
      cases t with
      | nil => simp
      | cons y t2 =>
          rw [List.foldl_cons, ih (by simp) _]
          rw [setFieldParts_overwrite]
          congr 1

/-- C7 (corrected): the stage still emits exactly one output document
per array element, and a non-array path still passes the document
through unchanged; but the per-element replacement holds only for
TOP-LEVEL (single-segment) unwound paths, where the write lands on each
shallow copy's own top level.  For a nested (multi-segment) path the
copies share the mutated nested object, so all k outputs are the same
document carrying the LAST array element, not one element each. -/
theorem C7_unwind_per_element (doc : Value) (path : String) :
    (arrOf (Aggregate.getFieldValue doc (Aggregate.fieldPathOf path)) = none →
      Aggregate.unwind [doc] path = [doc]) ∧
    (∀ xs, arrOf (Aggregate.getFieldValue doc (Aggregate.fieldPathOf path)) =
        some xs →
      (Aggregate.unwind [doc] path).length = xs.length ∧
      (∀ last, splitDots (Aggregate.fieldPathOf path) = [last] →
        Aggregate.unwind [doc] path =
          xs.map fun item =>
            .vobj (Value.objSet (Value.objEntries doc) last item)) ∧
      (∀ p q rest, splitDots (Aggregate.fieldPathOf path) = p :: q :: rest →
        ∀ hne : xs ≠ [],
        Aggregate.unwind [doc] path =
          xs.map fun _ =>
            .vobj (Value.objEntries (Aggregate.setFieldParts doc
              (p :: q :: rest) (xs.getLast hne))))) := by
  constructor
  · intro hn
    simp [Aggregate.unwind, hn]
  · intro xs hxs
    refine ⟨?_, ?_, ?_⟩
    · cases hsp : splitDots (Aggregate.fieldPathOf path) with
      | nil => simp [Aggregate.unwind, hxs, hsp]
      | cons p rest => cases rest <;> simp [Aggregate.unwind, hxs, hsp]
    · intro last hlast
      simp [Aggregate.unwind, hxs, hlast]
    · intro p q rest hpq hne
      have hu : Aggregate.unwind [doc] path =
          xs.map fun _ => .vobj (Value.objEntries
            (xs.foldl
              (fun d item => Aggregate.setFieldParts d (p :: q :: rest) item)
              doc)) := by
        simp [Aggregate.unwind, hxs, hpq]
      rw [hu, setFold_last (p :: q :: rest) xs hne doc]

/-- C7 counterexample: unwinding the nested path $a.b of one document
whose a.b holds [1, 2] emits TWO documents that BOTH carry the last
element 2 — the source's shallow copies share the mutated object a —
refuting the claimed per-element replacement, which would give b = 1 in
the first output. -/
theorem C7_unwind_nested_counterexample :
    Aggregate.unwind
      [.vobj [("a", .vobj [("b", .varr [Value.vint 1, Value.vint 2])])]]
      "$a.b" =
      [.vobj [("a", .vobj [("b", Value.vint 2)])],
       .vobj [("a", .vobj [("b", Value.vint 2)])]] ∧
    Aggregate.unwind
      [.vobj [("a", .vobj [("b", .varr [Value.vint 1, Value.vint 2])])]]
      "$a.b" ≠
      ([Value.vint 1, Value.vint 2].map fun item =>
        Aggregate.setFieldValue
          (.vobj [("a", .vobj [("b", .varr [Value.vint 1, Value.vint 2])])])
          "a.b" item) := by
  have h1 : Aggregate.unwind
      [.vobj [("a", .vobj [("b", .varr [Value.vint 1, Value.vint 2])])]]
      "$a.b" =
      [.vobj [("a", .vobj [("b", Value.vint 2)])],
       .vobj [("a", .vobj [("b", Value.vint 2)])]] := rfl
  have h2 : ([Value.vint 1, Value.vint 2].map fun item =>
      Aggregate.setFieldValue
        (.vobj [("a", .vobj [("b", .varr [Value.vint 1, Value.vint 2])])])
        "a.b" item) =
      [.vobj [("a", .vobj [("b", Value.vint 1)])],
       .vobj [("a", .vobj [("b", Value.vint 2)])]] := rfl
  refine ⟨h1, fun h => ?_⟩
  rw [h1, h2] at h
  simp [Value.vint] at h

theorem C7_unwind_per_element_witness :
    ((Aggregate.unwind
        [.vobj [("a", .vobj [("b", .varr [Value.vint 1, Value.vint 2])])]]
        "$a.b").length = 2 ∧
      Aggregate.unwind
        [.vobj [("a", .vobj [("b", .varr [Value.vint 1, Value.vint 2])])]]
        "$a.b" =
        [Value.vint 1, Value.vint 2].map fun _ =>
          .vobj (Value.objEntries (Aggregate.setFieldParts
            (.vobj [("a", .vobj [("b", .varr [Value.vint 1, Value.vint 2])])])
            ["a", "b"]
            ([Value.vint 1, Value.vint 2].getLast (by simp))))) ∧
    Aggregate.unwind
        [.vobj [("_id", Value.vint 1),
          ("a", .varr [Value.vint 1, Value.vint 2])]] "$a" =
      [Value.vint 1, Value.vint 2].map (fun item =>
        .vobj (Value.objSet (Value.objEntries
          (.vobj [("_id", Value.vint 1),
            ("a", .varr [Value.vint 1, Value.vint 2])])) "a" item)) ∧
    Aggregate.unwind [.vobj [("b", Value.vint 3)]] "b" =
      [.vobj [("b", Value.vint 3)]] :=
  ⟨⟨((C7_unwind_per_element
      (.vobj [("a", .vobj [("b", .varr [Value.vint 1, Value.vint 2])])])
      "$a.b").2 [Value.vint 1, Value.vint 2] rfl).1,
    ((C7_unwind_per_element
      (.vobj [("a", .vobj [("b", .varr [Value.vint 1, Value.vint 2])])])
      "$a.b").2 [Value.vint 1, Value.vint 2] rfl).2.2 "a" "b" [] rfl
      (by simp)⟩,
   ((C7_unwind_per_element
      (.vobj [("_id", Value.vint 1),
        ("a", .varr [Value.vint 1, Value.vint 2])]) "$a").2
      [Value.vint 1, Value.vint 2] rfl).2.1 "a" rfl,
   (C7_unwind_per_element (.vobj [("b", Value.vint 3)]) "b").1 rfl⟩

namespace Aggregate

/-- The stage table of Aggregate._validatePipeline. -/
def validStages : List String :=
  ["$match", "$group", "$sort", "$limit", "$skip", "$unwind", "$project",
   "$lookup", "$addFields", "$densify", "$facet", "$graphLookup",
   "$unionWith", "$sortByCount"]

/-- First key of a stage object (Object.keys(stage)[0]). -/
def stageOperator (stage : Value) : Option String :=
  match Value.objEntries stage with
  | [] => none
  | (k, _) :: _ => some k

/-- Aggregate._validatePipeline: reject any stage whose first key is not
in the stage table.  Runs inside the constructor, before any document is
touched; it inspects stage names only. -/
def validatePipeline (pipeline : List Value) : Except String Unit :=
  match pipeline with
  | [] => .ok ()
  | stage :: rest =>
      match stageOperator stage with
      | some op =>
          if op ∈ validStages then validatePipeline rest
          else .error ("Invalid pipeline stage: " ++ op)
      | none => .error "Invalid pipeline stage: undefined"

/-- The configuration check at the top of Aggregate._densify: both the
field and the range option must be present (truthy), else it throws. -/
def densifyCheck (options : Value) : Except String Unit :=
  if !(Value.propGet options "range").truthy ||
      !(Value.propGet options "field").truthy then
    .error "$densify requires both a \"field\" and a \"range\" property."
  else .ok ()

/-- Take a slice count from a numeric stage operand. -/
def sliceCount (docs : List Value) (v : Value) : Nat :=
  match Value.toNumberJS v with
  | .q x => if x ≤ 0 then 0 else (Value.truncQ x).toNat
  | .inf => docs.length
  | _ => 0

/-- One stage of the exec switch, over the fragment the claims exercise
($match, $limit, $skip, $densify).  The gap-filling loop of a well-formed
$densify and the remaining stages are not modelled (no claim depends on
them); they pass the documents through, as the default of a switch
without matching case would. -/
def applyStage (docs : List Value) (stage : Value) : Except String (List Value) :=
  match stageOperator stage with
  | none => .ok docs
  | some op =>
      let operation := Value.propGet stage op
      if op = "$match" then
        .ok (docs.filter fun d => Model.matchQuery d operation)
      else if op = "$limit" then .ok (docs.take (sliceCount docs operation))
      else if op = "$skip" then .ok (docs.drop (sliceCount docs operation))
      else if op = "$densify" then
        match densifyCheck operation with
        | .error e => .error e
        | .ok () => .ok docs
      else .ok docs

/-- The stage fold of Aggregate.exec: each stage consumes the previous
stage's full output; an error aborts the remaining stages. -/
def execPipeline (docs : List Value) (pipeline : List Value) :
    Except String (List Value) :=
  match pipeline with
  | [] => .ok docs
  | stage :: rest => do
      let d1 ← applyStage docs stage
      execPipeline d1 rest

end Aggregate

/-- C5 counterexample: a pipeline whose $densify stage is missing both
range and field passes construction-time validation (its stage name is in
the table), the preceding $limit stage already processes documents, and
the configuration error surfaces only when the $densify stage executes. -/
theorem C5_densify_counterexample :
    Aggregate.validatePipeline [.vobj [("$densify", .vobj [])]] =
      .ok () ∧
    Aggregate.applyStage [.vobj [("a", Value.vint 1)], .vobj [("a", Value.vint 2)]]
      (.vobj [("$limit", Value.vint 1)]) = .ok [.vobj [("a", Value.vint 1)]] ∧
    Aggregate.execPipeline
      [.vobj [("a", Value.vint 1)], .vobj [("a", Value.vint 2)]]
      [.vobj [("$limit", Value.vint 1)], .vobj [("$densify", .vobj [])]] =
      .error "$densify requires both a \"field\" and a \"range\" property." := by
  refine ⟨rfl, ?_, ?_⟩ <;>
    simp [Aggregate.execPipeline, Aggregate.applyStage, Aggregate.stageOperator,
      Aggregate.densifyCheck, Aggregate.sliceCount, Value.objEntries,
      Value.propGet, Value.objGet, Value.toNumberJS, Value.truthy, Value.vint,
      Value.truncQ, bind, Except.bind] <;>
    norm_num

/-- C5 (corrected): construction-time validation errors exactly when some
stage's first key is outside the stage table — it inspects names only —
and a $densify stage missing its range errors when that stage executes,
not at construction. -/
theorem C5_construction_vs_execution_errors :
    (∀ p : List Value, Aggregate.validatePipeline p = .ok () ↔
      ∀ s ∈ p, ∃ op, Aggregate.stageOperator s = some op ∧
        op ∈ Aggregate.validStages) ∧
    (∀ (docs : List Value) (opts : Value),
      (Value.propGet opts "range").truthy = false →
      Aggregate.applyStage docs (.vobj [("$densify", opts)]) =
        .error "$densify requires both a \"field\" and a \"range\" property.") := by
  constructor
  · intro p
    induction p with
    | nil => simp [Aggregate.validatePipeline]
    | cons stage rest ih =>
        simp only [Aggregate.validatePipeline]
        split
        case h_2 hop =>
            constructor
            · intro h; exact Except.noConfusion h
            · intro h
              obtain ⟨op, hop', _⟩ := h stage (List.mem_cons_self _ _)
              rw [hop] at hop'
              exact Option.noConfusion hop'
        case h_1 op hop =>
            by_cases hv : op ∈ Aggregate.validStages
            · rw [if_pos hv, ih]
              constructor
              · intro h s hs
                rcases List.mem_cons.mp hs with rfl | hs'
                · exact ⟨op, hop, hv⟩
                · exact h s hs'
              · intro h s hs
                exact h s (List.mem_cons_of_mem _ hs)
            · rw [if_neg hv]
              constructor
              · intro h; exact Except.noConfusion h
              · intro h
                obtain ⟨op', hop', hv'⟩ := h stage (List.mem_cons_self _ _)
                rw [hop] at hop'
                injection hop' with he
                subst he
                exact absurd hv' hv
  · intro docs opts hr
    have hcheck : Aggregate.densifyCheck opts =
        .error "$densify requires both a \"field\" and a \"range\" property." := by
      unfold Aggregate.densifyCheck
      rw [if_pos]
      simp [hr]
    simp [Aggregate.applyStage, Aggregate.stageOperator, Value.objEntries,
      Value.propGet, Value.objGet, hcheck]

/-- C5 witness: the characterization applied to a valid one-stage pipeline
and to a rangeless $densify executed on one document. -/
theorem C5_construction_vs_execution_errors_witness :
    Aggregate.validatePipeline [.vobj [("$limit", Value.vint 1)]] = .ok () ∧
    Aggregate.applyStage [.vobj [("a", Value.vint 1)]]
      (.vobj [("$densify", .vobj [("field", .vstr "t")])]) =
      .error "$densify requires both a \"field\" and a \"range\" property." := by
  constructor
  · rw [(C5_construction_vs_execution_errors.1 _)]
    intro s hs
    simp only [List.mem_singleton] at hs
    subst hs
    exact ⟨"$limit", rfl, by simp [Aggregate.validStages]⟩
  · exact C5_construction_vs_execution_errors.2 _ _ rfl

/-- A property read is no larger than the entry list. -/
theorem sizeOf_objGet_le (fs : List (String × Value)) (k : String) :
    sizeOf (Value.objGet fs k) ≤ sizeOf fs := by
  induction fs with
  | nil => simp [Value.objGet]
  | cons p rest ih =>
      obtain ⟨k', v⟩ := p
      by_cases h : k' = k
      · simp [Value.objGet, h]
        omega
      · simp [Value.objGet, h]
        omega

/-- An array index read is no larger than the array value. -/
theorem sizeOf_arrIdx_le (v : Value) (i : Nat) :
    sizeOf (Value.arrIdx v i) ≤ sizeOf v := by
  cases v <;> simp only [Value.arrIdx]
  case varr xs =>
    cases hd : xs.drop i with
    | nil =>
        simp
        try omega
    | cons y ys =>
        have hy : y ∈ xs := List.mem_of_mem_drop (by rw [hd]; exact List.mem_cons_self _ _)
        have hlt := List.sizeOf_lt_of_mem hy
        simp
        omega
  all_goals simp

/-- Property reads shrink below the whole object value. -/
theorem sizeOf_objGet_lt_vobj (fs : List (String × Value)) (k : String) :
    sizeOf (Value.objGet fs k) < sizeOf (Value.vobj fs) := by
  have h := sizeOf_objGet_le fs k
  simp
  omega

/-- Indexing a property read shrinks below the whole object value. -/
theorem sizeOf_arrIdx_objGet_lt_vobj (fs : List (String × Value))
    (k : String) (i : Nat) :
    sizeOf (Value.arrIdx (Value.objGet fs k) i) < sizeOf (Value.vobj fs) := by
  have h1 := sizeOf_arrIdx_le (Value.objGet fs k) i
  have h2 := sizeOf_objGet_le fs k
  simp
  omega

/-- Elements of an array-valued property shrink below the whole object. -/
theorem sizeOf_mem_asArray_objGet_lt_vobj {fs : List (String × Value)}
    {k : String} {c : Value} (h : c ∈ Value.asArray (Value.objGet fs k)) :
    sizeOf c < sizeOf (Value.vobj fs) := by
  have h1 := sizeOf_lt_of_mem_asArray h
  have h2 := sizeOf_objGet_le fs k
  simp
  omega

/-- Elements of an arrOf-extracted property shrink below the whole object. -/
theorem sizeOf_mem_arrOf_objGet_lt_vobj {fs : List (String × Value)}
    {k : String} {vals : List Value} {c : Value}
    (h : arrOf (Value.objGet fs k) = some vals) (hm : c ∈ vals) :
    sizeOf c < sizeOf (Value.vobj fs) := by
  have h1 := sizeOf_lt_of_arrOf h
  have h2 := List.sizeOf_lt_of_mem hm
  have h3 := sizeOf_objGet_le fs k
  simp
  omega

namespace Aggregate

/-- Approximate getFullYear from epoch milliseconds (Gregorian calendar
arithmetic is not exercised by any claim). -/
def getFullYearJS (t : Int) : Int := 1970 + t / 31556952000

/-- Aggregate._evaluateExpression: a $-prefixed string dereferences a dot
path on the document; an object is probed for each recognized operator
key in source order, a truthy operand selecting that operator; anything
else — including an object with an unrecognized operator key — passes
through as a literal.  (Evaluating the JavaScript null expression throws
in the source via a property read on null; it is unreachable from _group,
which handles null earlier, and passes through here.) -/
def evalExpr (expr doc : Value) : Value :=
  match expr with
  | .vstr s =>
      match s.data with
      | '$' :: _ => getFieldValue doc (s.drop 1)
      | _ => .vstr s
  | .vobj fs =>
      if (Value.objGet fs "$size").truthy then
        match arrOf (evalExpr (Value.objGet fs "$size") doc) with
        | some xs => Value.vint xs.length
        | none => Value.vint 0
      else if (Value.objGet fs "$sum").truthy then
        match h : arrOf (Value.objGet fs "$sum") with
        | some vals =>
            vals.attach.foldl
              (fun acc ⟨val, hval⟩ => Value.jsAdd acc (evalExpr val doc))
              (Value.vint 0)
        | none =>
            match arrOf (evalExpr (Value.objGet fs "$sum") doc) with
            | some xs =>
                xs.foldl
                  (fun a b => Value.jsAdd a (Value.jsOr b (Value.vint 0)))
                  (Value.vint 0)
            | none => Value.vint 0
      else if (Value.objGet fs "$add").truthy then
        (Value.asArray (Value.objGet fs "$add")).attach.foldl
          (fun acc ⟨val, hval⟩ => Value.jsAdd acc (evalExpr val doc))
          (Value.vint 0)
      else if (Value.objGet fs "$multiply").truthy then
        (Value.asArray (Value.objGet fs "$multiply")).attach.foldl
          (fun acc ⟨val, hval⟩ => Value.jsMulV acc (evalExpr val doc))
          (Value.vint 1)
      else if (Value.objGet fs "$eq").truthy then
        .vbool (Value.strictEq
          (evalExpr (Value.arrIdx (Value.objGet fs "$eq") 0) doc)
          (evalExpr (Value.arrIdx (Value.objGet fs "$eq") 1) doc))
      else if (Value.objGet fs "$gt").truthy then
        .vbool (Value.jsGtB
          (evalExpr (Value.arrIdx (Value.objGet fs "$gt") 0) doc)
          (evalExpr (Value.arrIdx (Value.objGet fs "$gt") 1) doc))
      else if (Value.objGet fs "$and").truthy then
        .vbool ((Value.asArray (Value.objGet fs "$and")).attach.all
          fun ⟨c, hc⟩ => (evalExpr c doc).truthy)
      else if (Value.objGet fs "$or").truthy then
        .vbool ((Value.asArray (Value.objGet fs "$or")).attach.any
          fun ⟨c, hc⟩ => (evalExpr c doc).truthy)
      else if (Value.objGet fs "$year").truthy then
        Value.vint (getFullYearJS
          (dateFromValue (evalExpr (Value.objGet fs "$year") doc)))
      else .vobj fs
  | other => other
termination_by sizeOf expr
decreasing_by
  all_goals
    first
    | exact sizeOf_objGet_lt_vobj fs _
    | exact sizeOf_arrIdx_objGet_lt_vobj fs _ _
    | exact sizeOf_mem_asArray_objGet_lt_vobj hval
    | exact sizeOf_mem_asArray_objGet_lt_vobj hc
    | exact sizeOf_mem_arrOf_objGet_lt_vobj h hval

end Aggregate

namespace Aggregate

/-- JSON.stringify as a Map key (undefined result stays undefined). -/
def stringifyKey (v : Value) : Value :=
  match Value.jsonStr v with
  | some s => .vstr s
  | none => Value.vundef

/-- The Map key Aggregate._group computes for one document: the sentinel
string "null" when the _id spec is literally null; the JSON-stringified
evaluated expression when the spec is object-typed and not an array
(dates included); the raw evaluated expression otherwise. -/
def groupKeyOf (gid : Value) (doc : Value) : Value :=
  match gid with
  | .vnull => .vstr "null"
  | .vobj fs => stringifyKey (evalExpr (.vobj fs) doc)
  | .vdate t => stringifyKey (evalExpr (.vdate t) doc)
  | other => evalExpr other doc

/-- Aggregate._initializeAccumulator. -/
def initializeAccumulator (accumulator : Value) : Value :=
  match stageOperator accumulator with
  | some "$sum" => Value.vint 0
  | some "$avg" => .vobj [("sum", Value.vint 0), ("count", Value.vint 0)]
  | some "$min" => .vnum .inf
  | some "$max" => .vnum .ninf
  | some "$push" => .varr []
  | some "$first" => .vnull
  | some "$last" => .vnull
  | _ => .vnull

/-- Aggregate._updateAccumulator on one field state.  $avg mutates sum and
count and recomputes a derived value member on every fold; the switch has
no default, so an unrecognized accumulator leaves the state unchanged.
The $push arm requires the array state its initializer guarantees (a
non-array state would throw in the source). -/
def updateAccumulator (state : Value) (spec : Value) (doc : Value) : Value :=
  match stageOperator spec with
  | none => state
  | some op =>
      let value := evalExpr (Value.propGet spec op) doc
      if op = "$sum" then Value.jsAdd state value
      else if op = "$avg" then
        let sum' := Value.jsAdd (Value.propGet state "sum") value
        let count' := Value.vnum
          ((Value.toNumberJS (Value.propGet state "count")).add (.q 1))
        let st1 := Value.objSet (Value.objEntries state) "sum" sum'
        let st2 := Value.objSet st1 "count" count'
        .vobj (Value.objSet st2 "value"
          (.vnum ((Value.toNumberJS sum').div (Value.toNumberJS count'))))
      else if op = "$min" then
        .vnum (JSNum.minJ (Value.toNumberJS state) (Value.toNumberJS value))
      else if op = "$max" then
        .vnum (JSNum.maxJ (Value.toNumberJS state) (Value.toNumberJS value))
      else if op = "$push" then
        match state with
        | .varr xs => .varr (xs ++ [value])
        | other => other
      else if op = "$first" then
        if Value.strictEq state .vnull then value else state
      else if op = "$last" then value
      else state

/-- Initialize the per-group object: one initialized state per non-_id
field of the grouping spec. -/
def initGroup (grouping : List (String × Value)) : Model.Obj :=
  grouping.foldl
    (fun g fv =>
      if fv.1 = "_id" then g
      else Value.objSet g fv.1 (initializeAccumulator fv.2)) []

/-- Fold one document into the per-group object. -/
def updateGroup (grouping : List (String × Value)) (doc : Value)
    (g : Model.Obj) : Model.Obj :=
  grouping.foldl
    (fun g fv =>
      if fv.1 = "_id" then g
      else Value.objSet g fv.1 (updateAccumulator (Value.objGet g fv.1) fv.2 doc))
    g

/-- Lookup in the group Map (SameValueZero keys; composite keys compare by
reference in JavaScript, which two separately computed values never
share, so they never collide here). -/
def mapHas (m : List (Value × Model.Obj)) (k : Value) : Bool :=
  m.any fun p => Value.sameValueZero p.1 k

/-- Update the entry of a key in the group Map. -/
def mapUpdate (m : List (Value × Model.Obj)) (k : Value)
    (f : Model.Obj → Model.Obj) : List (Value × Model.Obj) :=
  match m with
  | [] => []
  | (k', g) :: rest =>
      if Value.sameValueZero k' k then (k', f g) :: rest
      else (k', g) :: mapUpdate rest k f

/-- One document of the _group loop: an absent key inserts a freshly
initialized group which the same iteration immediately folds the document
into; a present key folds into the existing group. -/
def groupStep (grouping : List (String × Value)) (gid : Value)
    (m : List (Value × Model.Obj)) (doc : Value) : List (Value × Model.Obj) :=
  let key := groupKeyOf gid doc
  if mapHas m key then mapUpdate m key (updateGroup grouping doc)
  else m ++ [(key, updateGroup grouping doc (initGroup grouping))]

/-- The document loop of Aggregate._group. -/
def groupFold (grouping : List (String × Value)) (gid : Value)
    (docs : List Value) : List (Value × Model.Obj) :=
  docs.foldl (groupStep grouping gid) []

/-- Aggregate._group: fold all documents, then emit each group with its
_id — the sentinel string "null" collapsing back to null — followed by
the accumulated fields. -/
def groupStage (docs : List Value) (grouping : Value) : List Value :=
  let fs := Value.objEntries grouping
  let gid := Value.propGet grouping "_id"
  (groupFold fs gid docs).map fun kg =>
    .vobj (("_id",
      if Value.strictEq kg.1 (.vstr "null") then .vnull else kg.1) :: kg.2)

/-- The insertion-ordered distinct group keys of a document list. -/
def distinctKeys (gid : Value) (docs : List Value) : List Value :=
  docs.foldl
    (fun ks d =>
      let k := groupKeyOf gid d
      if ks.any (fun k' => Value.sameValueZero k' k) then ks else ks ++ [k])
    []

end Aggregate

/-- SameValueZero is symmetric. -/
theorem svz_symm {a b : Value} (h : Value.sameValueZero a b = true) :
    Value.sameValueZero b a = true := by
  cases a <;> cases b <;> simp_all [Value.sameValueZero] <;> omega

/-- SameValueZero is transitive. -/
theorem svz_trans {a b c : Value} (h1 : Value.sameValueZero a b = true)
    (h2 : Value.sameValueZero b c = true) :
    Value.sameValueZero a c = true := by
  cases a <;> cases b <;> cases c <;> simp_all [Value.sameValueZero]

/-- A value SameValueZero-equal to anything is SameValueZero-equal to
itself (it is primitive). -/
theorem svz_self_left {a b : Value} (h : Value.sameValueZero a b = true) :
    Value.sameValueZero a a = true := by
  cases a <;> cases b <;> simp_all [Value.sameValueZero]

/-- mapUpdate does not change the key list. -/
theorem mapUpdate_keys (m : List (Value × Model.Obj)) (k : Value)
    (f : Model.Obj → Model.Obj) :
    (Aggregate.mapUpdate m k f).map Prod.fst = m.map Prod.fst := by
  induction m with
  | nil => rfl
  | cons p rest ih =>
      obtain ⟨k', g⟩ := p
      by_cases h : Value.sameValueZero k' k = true
      · simp [Aggregate.mapUpdate, h]
      · simp [Aggregate.mapUpdate, h, ih]

/-- mapHas sees exactly the key list. -/
theorem mapHas_eq_any (m : List (Value × Model.Obj)) (k : Value) :
    Aggregate.mapHas m k =
      (m.map Prod.fst).any fun k' => Value.sameValueZero k' k := by
  induction m with
  | nil => rfl
  | cons p rest ih => simp [Aggregate.mapHas, List.any_cons] at ih ⊢; rw [ih]

/-- The group-Map keys are exactly the insertion-ordered distinct keys. -/
theorem groupFold_keys (grouping : List (String × Value)) (gid : Value)
    (docs : List Value) :
    (Aggregate.groupFold grouping gid docs).map Prod.fst =
      Aggregate.distinctKeys gid docs := by
  suffices h : ∀ (ds : List Value) (m : List (Value × Model.Obj)),
      ((ds.foldl (Aggregate.groupStep grouping gid) m).map Prod.fst) =
        ds.foldl
          (fun ks d =>
            let k := Aggregate.groupKeyOf gid d
            if ks.any (fun k' => Value.sameValueZero k' k) then ks
            else ks ++ [k])
          (m.map Prod.fst) by
    exact h docs []
  intro ds
  induction ds with
  | nil => intro m; rfl
  | cons d rest ih =>
      intro m
      simp only [List.foldl_cons]
      rw [ih]
      congr 1
      simp only [Aggregate.groupStep]
      by_cases h : Aggregate.mapHas m (Aggregate.groupKeyOf gid d) = true
      · rw [if_pos h, mapUpdate_keys]
        rw [mapHas_eq_any] at h
        simp [h]
      · rw [if_neg h]
        rw [mapHas_eq_any] at h
        simp only [Bool.not_eq_true] at h
        simp [h]

/-- Unfolding: expression evaluation of a string. -/
theorem evalExpr_str (s : String) (doc : Value) :
    Aggregate.evalExpr (.vstr s) doc =
      (match s.data with
        | '$' :: _ => Aggregate.getFieldValue doc (s.drop 1)
        | _ => .vstr s) := by
  rw [Aggregate.evalExpr]

/-- Unfolding: expression evaluation of a number is the literal itself. -/
theorem evalExpr_num (n : JSNum) (doc : Value) :
    Aggregate.evalExpr (.vnum n) doc = .vnum n := by
  rw [Aggregate.evalExpr]
  all_goals simp

/-- C10 (corrected): for every grouping spec and document list, the
emitted _id of each group is its Map key with the string "null" collapsed
to null — so a genuine string key "null" (or a computed key serializing
to "null") is emitted with _id null, colliding with the null sentinel in
the output — while the keys themselves stay distinct entries: null-keyed
and "null"-keyed documents form separate groups, each emitted with _id
null, not one merged group. -/
theorem C10_null_sentinel_emission (grouping : Value) (docs : List Value) :
    (Aggregate.groupStage docs grouping).map (fun g => Value.propGet g "_id") =
      (Aggregate.distinctKeys (Value.propGet grouping "_id") docs).map
        (fun k => if Value.strictEq k (.vstr "null") then Value.vnull else k) := by
  simp only [Aggregate.groupStage, List.map_map]
  rw [← groupFold_keys (Value.objEntries grouping)
    (Value.propGet grouping "_id") docs, List.map_map]
  apply List.map_congr_left
  intro kg _
  simp [Value.propGet, Value.objGet, Function.comp]

/-- C10 counterexample: grouping by the field reference "$cat" over one
document with cat null and one with cat the string "null" produces TWO
groups — the claim's merger into one bucket does not happen — though both
are emitted with _id null (the string key "null" collides with the null
sentinel at emission). -/
theorem C10_null_string_counterexample :
    Aggregate.groupStage
      [.vobj [("_id", Value.vint 1), ("cat", .vnull)],
       .vobj [("_id", Value.vint 2), ("cat", .vstr "null")]]
      (.vobj [("_id", .vstr "$cat"), ("n", .vobj [("$sum", Value.vint 1)])]) =
      [.vobj [("_id", .vnull), ("n", Value.vint 1)],
       .vobj [("_id", .vnull), ("n", Value.vint 1)]] := by
  have hdata : "$cat".data = ['$', 'c', 'a', 't'] := rfl
  have hdrop : "$cat".drop 1 = "cat" := rfl
  simp [Aggregate.groupStage, Aggregate.groupFold, Aggregate.groupStep,
    Aggregate.groupKeyOf, Aggregate.mapHas, Aggregate.mapUpdate,
    Aggregate.initGroup, Aggregate.updateGroup, Aggregate.initializeAccumulator,
    Aggregate.updateAccumulator, Aggregate.stageOperator, Value.objEntries,
    Value.propGet, Value.objGet, Value.objSet, evalExpr_str, evalExpr_num,
    hdata, hdrop, Aggregate.getFieldValue, Aggregate.getFieldParts, splitDots,
    splitDotAux, Value.sameValueZero, Value.strictEq, Value.jsAdd,
    Value.toPrimJS, Value.toNumberJS, JSNum.add, Value.vint, Value.truthy]
/-- SameValueZero is commutative as a boolean function. -/
theorem svz_comm (a b : Value) :
    Value.sameValueZero a b = Value.sameValueZero b a := by
  cases hab : Value.sameValueZero a b
  · cases hba : Value.sameValueZero b a
    · rfl
    · rw [svz_symm hba] at hab
      exact Bool.noConfusion hab
  · rw [svz_symm hab]

/-- The per-key accumulated group: the documents whose key matches,
folded from a freshly initialized group. -/
def foldForKey (grouping : List (String × Value)) (gid k : Value)
    (l : List Value) : Model.Obj :=
  (l.filter fun d => Value.sameValueZero (Aggregate.groupKeyOf gid d) k).foldl
    (fun g d => Aggregate.updateGroup grouping d g) (Aggregate.initGroup grouping)

/-- The intended contents of the group Map after folding a document list. -/
def stateOf (grouping : List (String × Value)) (gid : Value)
    (l : List Value) : List (Value × Model.Obj) :=
  (Aggregate.distinctKeys gid l).map fun k => (k, foldForKey grouping gid k l)

/-- distinctKeys only appends. -/
theorem distinctKeys_mono (gid : Value) (docs : List Value)
    (ks : List Value) (k : Value) (h : k ∈ ks) :
    k ∈ docs.foldl
      (fun ks d =>
        let kk := Aggregate.groupKeyOf gid d
        if ks.any (fun k' => Value.sameValueZero k' kk) then ks else ks ++ [kk])
      ks := by
  induction docs generalizing ks with
  | nil => exact h
  | cons d rest ih =>
      simp only [List.foldl_cons]
      apply ih
      by_cases hc : ks.any
          (fun k' => Value.sameValueZero k' (Aggregate.groupKeyOf gid d)) = true
      · simp [hc, h]
      · simp only [Bool.not_eq_true] at hc
        simp [hc, h]

/-- Every self-identical document key has a representative among the
distinct keys. -/
theorem distinctKeys_covers (gid : Value) (docs : List Value) (d : Value)
    (hd : d ∈ docs)
    (hself : Value.sameValueZero (Aggregate.groupKeyOf gid d)
      (Aggregate.groupKeyOf gid d) = true) :
    ∃ k ∈ Aggregate.distinctKeys gid docs,
      Value.sameValueZero k (Aggregate.groupKeyOf gid d) = true := by
  suffices h : ∀ (ds : List Value) (ks : List Value),
      d ∈ ds ∨ (∃ k ∈ ks, Value.sameValueZero k (Aggregate.groupKeyOf gid d) = true) →
      ∃ k ∈ ds.foldl
        (fun ks dd =>
          let kk := Aggregate.groupKeyOf gid dd
          if ks.any (fun k' => Value.sameValueZero k' kk) then ks else ks ++ [kk])
        ks, Value.sameValueZero k (Aggregate.groupKeyOf gid d) = true by
    exact h docs [] (Or.inl hd)
  intro ds
  induction ds with
  | nil =>
      intro ks h
      rcases h with h | h
      · exact absurd h (List.not_mem_nil d)
      · exact h
  | cons d' rest ih =>
      intro ks h
      simp only [List.foldl_cons]
      by_cases hc : ks.any
          (fun k' => Value.sameValueZero k' (Aggregate.groupKeyOf gid d')) = true
      · simp only [hc, if_true]
        apply ih
        rcases h with h | h
        · rcases List.mem_cons.mp h with rfl | h'
          · right
            rw [List.any_eq_true] at hc
            obtain ⟨k, hk, hkk⟩ := hc
            exact ⟨k, hk, hkk⟩
          · exact Or.inl h'
        · exact Or.inr h
      · simp only [Bool.not_eq_true] at hc
        simp only [hc, Bool.false_eq_true, if_false]
        apply ih
        rcases h with h | h
        · rcases List.mem_cons.mp h with rfl | h'
          · right
            exact ⟨Aggregate.groupKeyOf gid d, by simp, hself⟩
          · exact Or.inl h'
        · right
          obtain ⟨k, hk, hkk⟩ := h
          exact ⟨k, by simp [hk], hkk⟩

/-- The distinct keys are pairwise SameValueZero-distinct. -/
theorem distinctKeys_pairwise (gid : Value) (docs : List Value) :
    (Aggregate.distinctKeys gid docs).Pairwise
      (fun a b => Value.sameValueZero a b = false) := by
  suffices h : ∀ (ds : List Value) (ks : List Value),
      ks.Pairwise (fun a b => Value.sameValueZero a b = false) →
      (ds.foldl
        (fun ks dd =>
          let kk := Aggregate.groupKeyOf gid dd
          if ks.any (fun k' => Value.sameValueZero k' kk) then ks else ks ++ [kk])
        ks).Pairwise (fun a b => Value.sameValueZero a b = false) by
    exact h docs [] List.Pairwise.nil
  intro ds
  induction ds with
  | nil => intro ks hks; exact hks
  | cons d' rest ih =>
      intro ks hks
      simp only [List.foldl_cons]
      apply ih
      by_cases hc : ks.any
          (fun k' => Value.sameValueZero k' (Aggregate.groupKeyOf gid d')) = true
      · simp [hc, hks]
      · simp only [Bool.not_eq_true] at hc
        simp only [hc, Bool.false_eq_true, if_false]
        rw [List.pairwise_append]
        refine ⟨hks, List.pairwise_singleton _ _, ?_⟩
        intro a ha b hb
        simp only [List.mem_singleton] at hb
        subst hb
        rw [List.any_eq_false] at hc
        exact Bool.not_eq_true _ ▸ (eq_false_of_ne_true (hc a ha))

/-- mapUpdate over a keyed map with pairwise-distinct keys updates exactly
the SameValueZero-matching entries (at most one exists). -/
theorem mapUpdate_map (ks : List Value) (f : Value → Model.Obj)
    (key : Value) (g : Model.Obj → Model.Obj)
    (hpw : ks.Pairwise (fun a b => Value.sameValueZero a b = false)) :
    Aggregate.mapUpdate (ks.map fun k => (k, f k)) key g =
      ks.map fun k =>
        (k, if Value.sameValueZero k key then g (f k) else f k) := by
  induction ks with
  | nil => rfl
  | cons k0 rest ih =>
      rw [List.pairwise_cons] at hpw
      obtain ⟨hk0, hrest⟩ := hpw
      simp only [List.map_cons, Aggregate.mapUpdate]
      by_cases h0 : Value.sameValueZero k0 key = true
      · rw [if_pos h0, if_pos h0]
        congr 1
        apply List.map_congr_left
        intro k hk
        have hfalse : Value.sameValueZero k key = false := by
          cases hkk : Value.sameValueZero k key
          · rfl
          · exfalso
            have h1 : Value.sameValueZero key k = true := svz_symm hkk
            have h2 : Value.sameValueZero k0 k = true := svz_trans h0 h1
            rw [hk0 k hk] at h2
            exact Bool.noConfusion h2
        rw [hfalse]
        simp
      · simp only [Bool.not_eq_true] at h0
        rw [if_neg (by simp [h0]), if_neg (by simp [h0])]
        rw [ih hrest]

/-- One document of the group loop advances the intended Map contents by
one document, provided the document's key is self-identical (primitive or
serialized; composite keys compare by reference in JavaScript and are
outside this lemma). -/
theorem groupStep_stateOf (grouping : List (String × Value)) (gid : Value)
    (l : List Value) (d : Value)
    (hd : Value.sameValueZero (Aggregate.groupKeyOf gid d)
      (Aggregate.groupKeyOf gid d) = true) :
    Aggregate.groupStep grouping gid (stateOf grouping gid l) d =
      stateOf grouping gid (l ++ [d]) := by
  have hkeys : (stateOf grouping gid l).map Prod.fst =
      Aggregate.distinctKeys gid l := by
    rw [stateOf, List.map_map,
      show (Prod.fst ∘ fun k => (k, foldForKey grouping gid k l)) = id from rfl,
      List.map_id]
  have hdk : Aggregate.distinctKeys gid (l ++ [d]) =
      (if (Aggregate.distinctKeys gid l).any
          (fun k' => Value.sameValueZero k' (Aggregate.groupKeyOf gid d)) then
        Aggregate.distinctKeys gid l
      else Aggregate.distinctKeys gid l ++ [Aggregate.groupKeyOf gid d]) := by
    simp [Aggregate.distinctKeys, List.foldl_append]
  have hfilter : ∀ k, (l ++ [d]).filter
      (fun dd => Value.sameValueZero (Aggregate.groupKeyOf gid dd) k) =
      l.filter (fun dd => Value.sameValueZero (Aggregate.groupKeyOf gid dd) k) ++
        (if Value.sameValueZero (Aggregate.groupKeyOf gid d) k then [d] else []) := by
    intro k
    rw [List.filter_append]
    congr 1
    simp only [List.filter]
    cases hnc : Value.sameValueZero (Aggregate.groupKeyOf gid d) k <;> simp
  simp only [Aggregate.groupStep]
  rw [mapHas_eq_any, hkeys]
  by_cases hc : (Aggregate.distinctKeys gid l).any
      (fun k' => Value.sameValueZero k' (Aggregate.groupKeyOf gid d)) = true
  · rw [if_pos hc]
    rw [stateOf, mapUpdate_map _ _ _ _ (distinctKeys_pairwise gid l)]
    rw [stateOf, hdk, if_pos hc]
    apply List.map_congr_left
    intro k hk
    simp only [foldForKey]
    rw [hfilter k, List.foldl_append]
    rw [svz_comm (Aggregate.groupKeyOf gid d) k]
    cases hkk : Value.sameValueZero k (Aggregate.groupKeyOf gid d) <;> simp
  · rw [if_neg hc]
    rw [stateOf, stateOf, hdk, if_neg hc, List.map_append]
    congr 1
    · apply List.map_congr_left
      intro k hk
      have hkd : Value.sameValueZero (Aggregate.groupKeyOf gid d) k = false := by
        rw [svz_comm]
        simp only [Bool.not_eq_true] at hc
        rw [List.any_eq_false] at hc
        exact Bool.not_eq_true _ ▸ (eq_false_of_ne_true (hc k hk))
      simp only [foldForKey]
      rw [hfilter k, hkd]
      simp
    · simp only [List.map_singleton]
      have hempty : l.filter (fun dd =>
          Value.sameValueZero (Aggregate.groupKeyOf gid dd)
            (Aggregate.groupKeyOf gid d)) = [] := by
        rw [List.filter_eq_nil_iff]
        intro d' hd'
        intro hcontra
        have hself' := svz_self_left hcontra
        obtain ⟨krep, hkmem, hkrep⟩ := distinctKeys_covers gid l d' hd' hself'
        have htr := svz_trans hkrep hcontra
        simp only [Bool.not_eq_true] at hc
        rw [List.any_eq_false] at hc
        exact (hc _ hkmem) htr
      congr 1
      simp only [foldForKey]
      rw [hfilter _, hempty, hd]
      simp

/-- The group Map after the whole fold is exactly one entry per distinct
key, holding the fold of that key's documents (all keys self-identical). -/
theorem groupFold_spec (grouping : List (String × Value)) (gid : Value)
    (docs : List Value)
    (hall : ∀ d ∈ docs, Value.sameValueZero (Aggregate.groupKeyOf gid d)
      (Aggregate.groupKeyOf gid d) = true) :
    Aggregate.groupFold grouping gid docs = stateOf grouping gid docs := by
  suffices h : ∀ (rest processed : List Value),
      (∀ d ∈ rest, Value.sameValueZero (Aggregate.groupKeyOf gid d)
        (Aggregate.groupKeyOf gid d) = true) →
      rest.foldl (Aggregate.groupStep grouping gid)
        (stateOf grouping gid processed) =
        stateOf grouping gid (processed ++ rest) by
    have h0 := h docs [] hall
    simp only [List.nil_append] at h0
    rw [Aggregate.groupFold]
    rw [show stateOf grouping gid [] = [] from rfl] at h0
    exact h0
  intro rest
  induction rest with
  | nil => intro processed _; simp
  | cons d t ih =>
      intro processed hall'
      simp only [List.foldl_cons]
      rw [groupStep_stateOf grouping gid processed d
        (hall' d (List.mem_cons_self _ _))]
      rw [ih (processed ++ [d])
        (fun x hx => hall' x (List.mem_cons_of_mem _ hx))]
      simp

/-- The $avg accumulator state after folding a document list. -/
def avgStateOf (e : Value) (l : List Value) : Value :=
  l.foldl (fun st d => Aggregate.updateAccumulator st (.vobj [("$avg", e)]) d)
    (Aggregate.initializeAccumulator (.vobj [("$avg", e)]))

/-- The JavaScript + fold of an expression over a document list. -/
def sumOverJS (e : Value) (l : List Value) : Value :=
  l.foldl (fun a d => Value.jsAdd a (Aggregate.evalExpr e d)) (Value.vint 0)

/-- A single-field $avg grouping initializes the group to the single avg
state. -/
theorem initGroup_single (gid spec : Value) (f : String) (hf : f ≠ "_id") :
    Aggregate.initGroup [("_id", gid), (f, spec)] =
      [(f, Aggregate.initializeAccumulator spec)] := by
  simp [Aggregate.initGroup, hf, Value.objSet]

/-- Folding a document into a single-field group updates the single state. -/
theorem updateGroup_single (gid spec : Value) (f : String) (hf : f ≠ "_id")
    (st : Value) (d : Value) :
    Aggregate.updateGroup [("_id", gid), (f, spec)] d [(f, st)] =
      [(f, Aggregate.updateAccumulator st spec d)] := by
  simp [Aggregate.updateGroup, hf, Value.objSet, Value.objGet]

/-- The per-key group of a single-field $avg grouping is the avg state of
the key's documents. -/
theorem foldForKey_single (gid : Value) (f : String) (e : Value)
    (hf : f ≠ "_id") (k : Value) (l : List Value) :
    foldForKey [("_id", gid), (f, .vobj [("$avg", e)])] gid k l =
      [(f, avgStateOf e
        (l.filter fun d =>
          Value.sameValueZero (Aggregate.groupKeyOf gid d) k))] := by
  rw [foldForKey, avgStateOf]
  generalize (l.filter fun d =>
    Value.sameValueZero (Aggregate.groupKeyOf gid d) k) = ds
  rw [initGroup_single gid _ f hf]
  generalize Aggregate.initializeAccumulator (Value.vobj [("$avg", e)]) = st
  induction ds generalizing st with
  | nil => rfl
  | cons d t ih =>
      simp only [List.foldl_cons]
      rw [updateGroup_single gid _ f hf]
      exact ih _

/-- One $avg fold step on a canonical \x7bsum, count(, value)\x7d state:
sum accumulates by JavaScript +, count increments, and the derived value
member is recomputed as sum / count. -/
theorem updateAccumulator_avg (e d s : Value) (n : ℚ)
    (tail : List (String × Value))
    (htail : tail = [] ∨ ∃ u, tail = [("value", u)]) :
    Aggregate.updateAccumulator
      (.vobj (("sum", s) :: ("count", .vnum (.q n)) :: tail))
      (.vobj [("$avg", e)]) d =
    .vobj [("sum", Value.jsAdd s (Aggregate.evalExpr e d)),
           ("count", .vnum (.q (n + 1))),
           ("value", .vnum ((Value.toNumberJS
             (Value.jsAdd s (Aggregate.evalExpr e d))).div (.q (n + 1))))] := by
  rcases htail with h | ⟨u, h⟩ <;> subst h <;>
    simp [Aggregate.updateAccumulator, Aggregate.stageOperator,
      Value.objEntries, Value.propGet, Value.objGet, Value.objSet,
      Value.toNumberJS, JSNum.add]

/-- Folding a non-empty document list through the $avg accumulator yields
the canonical state: the JavaScript sum, the document count, and a value
member equal to sum / count. -/
theorem avgFold_canonical (e : Value) :
    ∀ (ds : List Value) (s : Value) (n : ℚ) (tail : List (String × Value)),
    (tail = [] ∨ ∃ u, tail = [("value", u)]) → ds ≠ [] →
    ds.foldl
      (fun st d => Aggregate.updateAccumulator st (.vobj [("$avg", e)]) d)
      (.vobj (("sum", s) :: ("count", .vnum (.q n)) :: tail)) =
    .vobj [("sum",
        ds.foldl (fun a d => Value.jsAdd a (Aggregate.evalExpr e d)) s),
      ("count", .vnum (.q (n + ds.length))),
      ("value", .vnum ((Value.toNumberJS
        (ds.foldl (fun a d => Value.jsAdd a (Aggregate.evalExpr e d)) s)).div
        (.q (n + ds.length))))] := by
  intro ds
  induction ds with
  | nil => intro s n tail _ hne; exact absurd rfl hne
  | cons d t ih =>
      intro s n tail htail _
      simp only [List.foldl_cons]
      rw [updateAccumulator_avg e d s n tail htail]
      cases t with
      | nil =>
          simp only [List.foldl_nil, List.length_cons, List.length_nil]
          norm_num
      | cons d2 t2 =>
          rw [ih (Value.jsAdd s (Aggregate.evalExpr e d)) (n + 1) _
            (Or.inr ⟨_, rfl⟩) (by simp)]
          simp only [List.length_cons]
          push_cast
          ring_nf

/-- The emitted $avg field for a non-empty group: a running-state object
whose value member carries the mean, not a bare number. -/
theorem avgStateOf_spec (e : Value) (l : List Value) (hne : l ≠ []) :
    avgStateOf e l = .vobj [("sum", sumOverJS e l),
      ("count", .vnum (.q l.length)),
      ("value", .vnum ((Value.toNumberJS (sumOverJS e l)).div
        (.q l.length)))] := by
  rw [avgStateOf, sumOverJS]
  have hinit : Aggregate.initializeAccumulator (.vobj [("$avg", e)]) =
      .vobj (("sum", Value.vint 0) :: ("count", .vnum (.q 0)) :: []) := by
    simp [Aggregate.initializeAccumulator, Aggregate.stageOperator,
      Value.objEntries, Value.vint]
  rw [hinit, avgFold_canonical e l (Value.vint 0) 0 [] (Or.inl rfl) hne]
  norm_num

/-- C2 (corrected): the number of emitted $group documents does equal the
number of distinct serialized _id keys, but accumulator fields are NOT
finalized to scalars: a single-field $avg grouping emits, for each
distinct key, the running accumulator state object — whose value member
equals sum / count, the arithmetic mean — not the bare mean number.  The
key-identity hypothesis models that every document's computed group key
matches itself under the Map's SameValueZero equality. -/
theorem C2_group_avg_emits_state_object (grouping : Value) (docs : List Value)
    (gid : Value) (f : String) (e : Value) (l : List Value)
    (hf : f ≠ "_id")
    (hall : ∀ d ∈ docs, Value.sameValueZero (Aggregate.groupKeyOf gid d)
      (Aggregate.groupKeyOf gid d) = true)
    (hne : l ≠ []) :
    (Aggregate.groupStage docs grouping).length =
      (Aggregate.distinctKeys (Value.propGet grouping "_id") docs).length ∧
    Aggregate.groupStage docs (.vobj [("_id", gid), (f, .vobj [("$avg", e)])]) =
      (Aggregate.distinctKeys gid docs).map (fun k =>
        .vobj [("_id", if Value.strictEq k (.vstr "null") then Value.vnull else k),
          (f, avgStateOf e (docs.filter fun d =>
            Value.sameValueZero (Aggregate.groupKeyOf gid d) k))]) ∧
    avgStateOf e l = .vobj [("sum", sumOverJS e l),
      ("count", .vnum (.q l.length)),
      ("value", .vnum ((Value.toNumberJS (sumOverJS e l)).div
        (.q l.length)))] := by
  refine ⟨?_, ?_, avgStateOf_spec e l hne⟩
  · have h := congrArg List.length
      (groupFold_keys (Value.objEntries grouping)
        (Value.propGet grouping "_id") docs)
    simp only [List.length_map] at h
    simpa [Aggregate.groupStage] using h
  · have hgid : Value.propGet
        (.vobj [("_id", gid), (f, .vobj [("$avg", e)])]) "_id" = gid := by
      simp [Value.propGet, Value.objGet]
    have hent : Value.objEntries
        (.vobj [("_id", gid), (f, .vobj [("$avg", e)])]) =
        [("_id", gid), (f, .vobj [("$avg", e)])] := rfl
    simp only [Aggregate.groupStage, hgid, hent]
    rw [groupFold_spec _ gid docs hall, stateOf, List.map_map]
    apply List.map_congr_left
    intro k _
    simp only [Function.comp]
    rw [foldForKey_single gid f e hf k docs]

/-- C2 counterexample: averaging $x over two documents x=10 and x=20 in a
single null-keyed group emits the field as the running state object
\x7bsum: 30, count: 2, value: 15\x7d, which is not the number 15 the claim
promises. -/
theorem C2_avg_counterexample :
    Aggregate.groupStage
      [.vobj [("x", Value.vint 10)], .vobj [("x", Value.vint 20)]]
      (.vobj [("_id", .vnull), ("a", .vobj [("$avg", .vstr "$x")])]) =
      [.vobj [("_id", .vnull),
        ("a", .vobj [("sum", .vnum (.q 30)), ("count", .vnum (.q 2)),
          ("value", .vnum (.q 15))])]] ∧
    (Value.vobj [("sum", .vnum (.q 30)), ("count", .vnum (.q 2)),
      ("value", .vnum (.q 15))]) ≠ .vnum (.q 15) := by
  constructor
  · have hdata : "$x".data = ['$', 'x'] := rfl
    have hdrop : "$x".drop 1 = "x" := rfl
    simp [Aggregate.groupStage, Aggregate.groupFold, Aggregate.groupStep,
      Aggregate.groupKeyOf, Aggregate.mapHas, Aggregate.mapUpdate,
      Aggregate.initGroup, Aggregate.updateGroup,
      Aggregate.initializeAccumulator, Aggregate.updateAccumulator,
      Aggregate.stageOperator, Value.objEntries, Value.propGet, Value.objGet,
      Value.objSet, evalExpr_str, evalExpr_num, hdata, hdrop,
      Aggregate.getFieldValue, Aggregate.getFieldParts, splitDots,
      splitDotAux, Value.sameValueZero, Value.strictEq, Value.jsAdd,
      Value.toPrimJS, Value.toNumberJS, JSNum.add, JSNum.div, Value.vint,
      Value.truthy]
    norm_num
  · intro h
    exact Value.noConfusion h

theorem C2_group_avg_emits_state_object_witness :
    (Aggregate.groupStage [.vobj [("x", Value.vint 10)]]
        (.vobj [("_id", Value.vnull)])).length =
      (Aggregate.distinctKeys
        (Value.propGet (.vobj [("_id", Value.vnull)]) "_id")
        [.vobj [("x", Value.vint 10)]]).length ∧
    Aggregate.groupStage [.vobj [("x", Value.vint 10)]]
        (.vobj [("_id", Value.vnull), ("a", .vobj [("$avg", .vstr "$x")])]) =
      (Aggregate.distinctKeys Value.vnull [.vobj [("x", Value.vint 10)]]).map
        (fun k =>
          .vobj [("_id",
              if Value.strictEq k (.vstr "null") then Value.vnull else k),
            ("a", avgStateOf (.vstr "$x")
              ([Value.vobj [("x", Value.vint 10)]].filter fun d =>
                Value.sameValueZero (Aggregate.groupKeyOf Value.vnull d) k))]) ∧
    avgStateOf (.vstr "$x") [.vobj [("x", Value.vint 10)]] =
      .vobj [("sum", sumOverJS (.vstr "$x") [.vobj [("x", Value.vint 10)]]),
        ("count", .vnum (.q ([Value.vobj [("x", Value.vint 10)]].length))),
        ("value", .vnum ((Value.toNumberJS
            (sumOverJS (.vstr "$x") [.vobj [("x", Value.vint 10)]])).div
          (.q ([Value.vobj [("x", Value.vint 10)]].length))))] :=
  C2_group_avg_emits_state_object (.vobj [("_id", Value.vnull)])
    [.vobj [("x", Value.vint 10)]] Value.vnull "a" (.vstr "$x")
    [.vobj [("x", Value.vint 10)]] (by decide)
    (fun d hd => by rw [List.mem_singleton] at hd; subst hd; decide)
    (by simp)

namespace Aggregate

/-- The JSON.stringify key Aggregate._graphLookup uses for its visited
set (none when the value does not stringify). -/
def docKeyOf (v : Value) : Option String := Value.jsonStr v

/-- The destructured options of Aggregate._graphLookup.  maxDepth
defaults to Infinity and depthField to null in the source. -/
structure GLOpts where
  startWith : String
  connectFromField : String
  connectToField : String
  asField : String
  maxDepth : JSNum
  depthField : Option String

mutual

/-- The buildConnections closure of Aggregate._graphLookup, run on a fuel
budget: the source recursion has no structural bound, so fuel models its
call stack, and none means the budget ran out before the recursion
returned.  The visited set is threaded exactly as the source uses it:
checked in the filter and deleted after each recursive call, but never
added to. -/
def buildConnections (foreign : List Value) (o : GLOpts) :
    Nat → List (Option String) → Value → Nat →
      Option (List Value × List (Option String))
  | 0, _, _, _ => none
  | fuel + 1, vis, doc, depth =>
      if JSNum.ltb o.maxDepth (.q depth) then some ([], vis)
      else
        let valueToMatch := getFieldValue doc o.startWith
        let connectedDocs := foreign.filter fun d2 =>
          Value.sameValueZero (getFieldValue d2 o.connectFromField)
            valueToMatch
        let connections := connectedDocs.filter fun d2 =>
          !(vis.contains (docKeyOf d2)) &&
            Value.strictEq (getFieldValue d2 o.connectToField) valueToMatch
        mapConnections foreign o fuel vis connections depth

/-- The .map phase over the filtered connections: recurse into each
connected document, delete its key from the visited set, then attach the
optional depth field and the output array field. -/
def mapConnections (foreign : List Value) (o : GLOpts) :
    Nat → List (Option String) → List Value → Nat →
      Option (List Value × List (Option String))
  | _, vis, [], _ => some ([], vis)
  | 0, _, _ :: _, _ => none
  | fuel + 1, vis, d2 :: rest, depth =>
      match buildConnections foreign o fuel vis d2 (depth + 1) with
      | none => none
      | some (sub, vis1) =>
          let vis2 := vis1.erase (docKeyOf d2)
          let rd :=
            match o.depthField with
            | some df =>
                Value.objSet (Value.objEntries d2) df (Value.vint depth)
            | none => Value.objEntries d2
          let rd2 := Value.objSet rd o.asField (.varr sub)
          match mapConnections foreign o fuel vis2 rest depth with
          | none => none
          | some (restOut, vis3) => some (.vobj rd2 :: restOut, vis3)

end

/-- The root loop of Aggregate._graphLookup: the visited set is cleared
for each root document, buildConnections runs from depth 0, and the
result is attached to the root under the output field. -/
def graphLookup (foreign : List Value) (o : GLOpts) (fuel : Nat) :
    List Value → Option (List Value)
  | [] => some []
  | doc :: rest =>
      match buildConnections foreign o fuel [] doc 0 with
      | none => none
      | some (conns, _) =>
          match graphLookup foreign o fuel rest with
          | none => none
          | some out =>
              some (.vobj (Value.objSet (Value.objEntries doc) o.asField
                (.varr conns)) :: out)

end Aggregate

/-- Foreign document A of a two-document connection cycle: its startWith
value "t" connects to B, whose startWith value "s" connects back to A. -/
def cycA : Value :=
  .vobj [("sw", .vstr "t"), ("cf", .vstr "s"), ("ct", .vstr "s")]

/-- Foreign document B of the cycle. -/
def cycB : Value :=
  .vobj [("sw", .vstr "s"), ("cf", .vstr "t"), ("ct", .vstr "t")]

/-- A root document whose startWith value "s" enters the cycle at A. -/
def cycRoot : Value := .vobj [("sw", .vstr "s")]

/-- The cyclic foreign collection. -/
def cycForeign : List Value := [cycA, cycB]

/-- $graphLookup options for the cycle, with maxDepth left at its
Infinity default and no depthField. -/
def cycOpts : Aggregate.GLOpts := ⟨"sw", "cf", "ct", "links", .inf, none⟩

/-- On the cyclic collection the recursion from A reaches B and the one
from B reaches A, so no fuel budget suffices: the source recursion never
returns.  The visited set stays empty because the source never adds to
it. -/
theorem cyc_buildConnections_none :
    ∀ fuel d,
      Aggregate.buildConnections cycForeign cycOpts fuel [] cycA d = none ∧
      Aggregate.buildConnections cycForeign cycOpts fuel [] cycB d = none := by
  intro fuel
  induction fuel using Nat.strong_induction_on with
  | _ fuel ih =>
    intro d
    cases fuel with
    | zero => exact ⟨rfl, rfl⟩
    | succ g =>
        cases g with
        | zero => exact ⟨rfl, rfl⟩
        | succ h =>
            have hA := (ih h (by omega) (d + 1)).1
            have hB := (ih h (by omega) (d + 1)).2
            constructor
            · rw [show Aggregate.buildConnections cycForeign cycOpts
                  (h + 1 + 1) [] cycA d =
                Aggregate.mapConnections cycForeign cycOpts (h + 1) []
                  [cycB] d from rfl]
              simp only [Aggregate.mapConnections]
              rw [hB]
            · rw [show Aggregate.buildConnections cycForeign cycOpts
                  (h + 1 + 1) [] cycB d =
                Aggregate.mapConnections cycForeign cycOpts (h + 1) []
                  [cycA] d from rfl]
              simp only [Aggregate.mapConnections]
              rw [hA]

/-- From the root the traversal enters the cycle at A and never returns,
for any fuel budget. -/
theorem cyc_root_none (fuel : Nat) :
    Aggregate.buildConnections cycForeign cycOpts fuel [] cycRoot 0 =
      none := by
  cases fuel with
  | zero => rfl
  | succ g =>
      cases g with
      | zero => rfl
      | succ h =>
          have hA := (cyc_buildConnections_none h 1).1
          rw [show Aggregate.buildConnections cycForeign cycOpts (h + 1 + 1)
              [] cycRoot 0 =
            Aggregate.mapConnections cycForeign cycOpts (h + 1) []
              [cycA] 0 from rfl]
          simp only [Aggregate.mapConnections]
          rw [hA]

/-- C1 (code_bug): on a foreign collection with a two-document connection
cycle and the default options (maxDepth Infinity, no depthField),
$graphLookup does NOT terminate: the claimed per-root visited-set guard
is dead code — the source checks, deletes and clears visitedDocs but
never adds a key to it — so buildConnections recurses A to B to A
forever, and no finite fuel budget lets the fuelled embedding of the
recursion return a result. -/
theorem C1_graphLookup_cycle_nontermination (fuel : Nat) :
    Aggregate.graphLookup cycForeign cycOpts fuel [cycRoot] = none := by
  simp only [Aggregate.graphLookup, cyc_root_none fuel]
